import Mathlib

/-!
Verification of the string-interning table (`src/objects/string-table.cc`) and of
the Maglev straight-forward register allocator (`src/maglev/maglev-regalloc.cc`).
The C++ code is shallowly embedded: machine integers become `Nat` (all the
quantities involved are non-negative and the code masks with `& (size - 1)`
where wrap-around matters), unbounded C++ loops become fuelled recursions, and
`std::unique_ptr` graphs become plain functional values.
-/

namespace V8

/-! ## String table: data model

A heap string is modelled by an identity (standing for its address, so that
"pointer-identical" is expressible), its hash, and its character content.
`KeyIsMatch` (string-table.cc:72-77) compares hash, length and content; length
equality is subsumed by content equality here.
-/

structure VStr where
  sid : Nat
  hash : Nat
  content : List Nat
  deriving DecidableEq, Repr

/-- A slot of `StringTable::Data`: Smi 0 is the empty sentinel, Smi 1 the
deleted sentinel, anything else a string (string-table.cc:88-90). -/
inductive Slot where
  | empty
  | deleted
  | str (s : VStr)
  deriving DecidableEq, Repr

structure Key where
  hash : Nat
  content : List Nat
  deriving DecidableEq, Repr

/-- string-table.cc:72-77 (`KeyIsMatch`): hash, length and content comparison. -/
def keyIsMatch (k : Key) (s : VStr) : Bool :=
  s.hash == k.hash && s.content.length == k.content.length && s.content == k.content

/-- string-table.cc:168-170 (`StringTable::Data::FirstProbe`). -/
def firstProbe (hash size : Nat) : Nat :=
  hash &&& (size - 1)

/-- string-table.cc:172-175 (`StringTable::Data::NextProbe`). -/
def nextProbe (last number size : Nat) : Nat :=
  (last + number) &&& (size - 1)

/-- The sequence of slots inspected for a given hash: probe attempt 0 is
`FirstProbe`, attempt `a+1` is `NextProbe` of attempt `a` with `count = a+1`,
exactly as the loops in FindEntry/FindInsertionEntry/FindEntryOrInsertionEntry
step `entry = NextProbe(entry, count++, capacity_)` with `count` starting at 1. -/
def probeSeq (hash size : Nat) : Nat → Nat
  | 0 => firstProbe hash size
  | a + 1 => nextProbe (probeSeq hash size a) (a + 1) size

/-- Outcome of `FindEntryOrInsertionEntry`. -/
inductive FindResult where
  | found (entry : Nat)
  | insertAt (entry : Nat)
  deriving DecidableEq, Repr

/-- string-table.cc:252-268 (`StringTable::Data::FindEntry`) as a fuelled loop.
`some (some e)` is a hit at slot `e`, `some none` a definitive miss (empty slot
reached), `none` fuel exhaustion (the C++ loop relies on the table never being
full and has no exit in that case). -/
def findEntryAux (t : List Slot) (k : Key) : Nat → Nat → Nat → Option (Option Nat)
  | 0, _, _ => none
  | fuel + 1, entry, count =>
    match t.getD entry Slot.empty with
    | Slot.empty => some none
    | Slot.deleted => findEntryAux t k fuel (nextProbe entry count t.length) (count + 1)
    | Slot.str s =>
      if keyIsMatch k s then some (some entry)
      else findEntryAux t k fuel (nextProbe entry count t.length) (count + 1)

def findEntry (t : List Slot) (k : Key) (fuel : Nat) : Option (Option Nat) :=
  findEntryAux t k fuel (firstProbe k.hash t.length) 1

/-- string-table.cc:270-282 (`StringTable::Data::FindInsertionEntry`). -/
def findInsertionEntryAux (t : List Slot) : Nat → Nat → Nat → Option Nat
  | 0, _, _ => none
  | fuel + 1, entry, count =>
    match t.getD entry Slot.empty with
    | Slot.empty => some entry
    | Slot.deleted => some entry
    | Slot.str _ => findInsertionEntryAux t fuel (nextProbe entry count t.length) (count + 1)

def findInsertionEntry (t : List Slot) (hash fuel : Nat) : Option Nat :=
  findInsertionEntryAux t fuel (firstProbe hash t.length) 1

/-- string-table.cc:284-311 (`StringTable::Data::FindEntryOrInsertionEntry`).
`ins` carries the first deleted slot seen, as the C++ `insertion_entry`. -/
def findEntryOrInsertionEntryAux (t : List Slot) (k : Key) :
    Nat → Option Nat → Nat → Nat → Option FindResult
  | 0, _, _, _ => none
  | fuel + 1, ins, entry, count =>
    match t.getD entry Slot.empty with
    | Slot.empty => some (FindResult.insertAt (ins.getD entry))
    | Slot.deleted =>
      findEntryOrInsertionEntryAux t k fuel (some (ins.getD entry))
        (nextProbe entry count t.length) (count + 1)
    | Slot.str s =>
      if keyIsMatch k s then some (FindResult.found entry)
      else findEntryOrInsertionEntryAux t k fuel ins
        (nextProbe entry count t.length) (count + 1)

def findEntryOrInsertionEntry (t : List Slot) (k : Key) (fuel : Nat) : Option FindResult :=
  findEntryOrInsertionEntryAux t k fuel none (firstProbe k.hash t.length) 1

/-- The live strings stored in a table generation, in slot order. -/
def liveStrings (t : List Slot) : List VStr :=
  t.filterMap fun sl =>
    match sl with
    | Slot.str s => some s
    | _ => none

/-! ## String table: capacity computations (string-table.cc:31-70) -/

def kStringTableMaxEmptyFactor : Nat := 4
def kStringTableMinCapacity : Nat := 2048

/-- string-table.cc:34-47 (`StringTableHasSufficientCapacityToAdd`). -/
def stringTableHasSufficientCapacityToAdd
    (capacity numberOfElements numberOfDeletedElements numberOfAdditionalElements : Nat) :
    Bool :=
  let nof := numberOfElements + numberOfAdditionalElements
  if nof < capacity ∧ numberOfDeletedElements ≤ (capacity - nof) / 2 then
    decide (nof + nof / 2 ≤ capacity)
  else
    false

/-- Helper for `RoundUpToPowerOfTwo32`: the least power of two that is at
least `x`, by halving; the fuel only needs to cover the recursion depth
(logarithmic), so fuel `x` always suffices. -/
def ceilPow2Aux : Nat → Nat → Nat
  | 0, _ => 1
  | fuel + 1, x => if x ≤ 1 then 1 else 2 * ceilPow2Aux fuel ((x + 1) / 2)

/-- `base::bits::RoundUpToPowerOfTwo32`: the least power of two that is at
least the argument (on the C++ function's DCHECKed domain `value ≤ 2^31`; the
C++ version maps 0 to 0 where this maps 0 to 1, and the only use feeds the
result into `max ... 2048`, where that difference is invisible). -/
def roundUpToPowerOfTwo32 (x : Nat) : Nat :=
  ceilPow2Aux x x

/-- string-table.cc:49-55 (`ComputeStringTableCapacity`). -/
def computeStringTableCapacity (atLeastSpaceFor : Nat) : Nat :=
  let rawCapacity := atLeastSpaceFor + atLeastSpaceFor / 2
  max (roundUpToPowerOfTwo32 rawCapacity) kStringTableMinCapacity

/-- string-table.cc:57-70 (`ComputeStringTableCapacityWithShrink`). -/
def computeStringTableCapacityWithShrink (currentCapacity atLeastRoomFor : Nat) : Nat :=
  if atLeastRoomFor > currentCapacity / kStringTableMaxEmptyFactor then
    currentCapacity
  else
    let newCapacity := computeStringTableCapacity atLeastRoomFor
    if newCapacity < kStringTableMinCapacity then currentCapacity
    else newCapacity

/-! ## String table: resize (string-table.cc:227-250) -/

/-- One rehash step of `Data::Resize`: find the insertion entry for the
string's hash in the new generation and store the string there. -/
def resizeInsert (newSlots : List Slot) (s : VStr) (fuel : Nat) : Option (List Slot) :=
  match findInsertionEntry newSlots s.hash fuel with
  | none => none
  | some p => some (newSlots.set p (Slot.str s))

/-- The rehash loop of `Data::Resize` over the old generation's slots in index
order, skipping the empty and deleted sentinels. -/
def resizeFill (old : List Slot) (acc : List Slot) (fuel : Nat) : Option (List Slot) :=
  match old with
  | [] => some acc
  | Slot.str s :: rest =>
    match resizeInsert acc s fuel with
    | none => none
    | some acc2 => resizeFill rest acc2 fuel
  | _ :: rest => resizeFill rest acc fuel

/-- A table generation: slots plus the two mutable counters
(string-table.cc:177-183); the capacity is `slots.length`. -/
structure STData where
  slots : List Slot
  numberOfElements : Nat
  numberOfDeletedElements : Nat
  deriving DecidableEq, Repr

/-- string-table.cc:227-250 (`StringTable::Data::Resize`): a fresh all-empty
generation of the given capacity, every live entry re-probed into it, the
element count copied, the deleted count left at zero. -/
def resize (d : STData) (capacity : Nat) : Option STData :=
  match resizeFill d.slots (List.replicate capacity Slot.empty) capacity with
  | none => none
  | some ns => some ⟨ns, d.numberOfElements, 0⟩

/-! ## String table: EnsureCapacity and LookupKey (string-table.cc:508-656)

The sequential (single mutator) behaviour of `StringTable`: the current
generation with its counters. The concurrency protocol is outside a shallow
embedding; claims are about the sequential contract.
-/

/-- string-table.cc:615-656 (`StringTable::EnsureCapacity`): maybe shrink,
otherwise grow if the pending insertion would not leave sufficient capacity.
`none` is fuel exhaustion inside the rehash loop of a triggered resize. -/
def ensureCapacity (st : STData) : Option STData :=
  let currentCapacity := st.slots.length
  let currentNof := st.numberOfElements
  let capacityAfterShrinking :=
    computeStringTableCapacityWithShrink currentCapacity (currentNof + 1)
  if capacityAfterShrinking < currentCapacity then
    resize st capacityAfterShrinking
  else if ¬ stringTableHasSufficientCapacityToAdd currentCapacity currentNof
      st.numberOfDeletedElements 1 then
    resize st (computeStringTableCapacity (currentNof + 1))
  else
    some st

/-- string-table.cc:508-594 (`StringTable::LookupKey`), sequentially: the
optimistic `FindEntry`, then on a miss `EnsureCapacity` followed by
`FindEntryOrInsertionEntry`, writing the key's prepared string (content and
hash of the key, fresh identity `newId`, as built by `GetHandleForInsertion`)
into an empty or deleted slot, or returning the element found by the re-check.
All searches run with the table's capacity as fuel; `none` means a search ran
out of fuel (the C++ loops never exit then) or an impossible slot state. -/
def lookupKey (st : STData) (k : Key) (newId : Nat) : Option (STData × VStr) :=
  match findEntry st.slots k st.slots.length with
  | none => none
  | some (some entry) =>
    match st.slots.getD entry Slot.empty with
    | Slot.str s => some (st, s)
    | _ => none
  | some none =>
    match ensureCapacity st with
    | none => none
    | some st1 =>
      match findEntryOrInsertionEntry st1.slots k st1.slots.length with
      | none => none
      | some (FindResult.found entry) =>
        match st1.slots.getD entry Slot.empty with
        | Slot.str s => some (st1, s)
        | _ => none
      | some (FindResult.insertAt entry) =>
        let newString : VStr := ⟨newId, k.hash, k.content⟩
        match st1.slots.getD entry Slot.empty with
        | Slot.empty =>
          some (⟨st1.slots.set entry (Slot.str newString),
                 st1.numberOfElements + 1, st1.numberOfDeletedElements⟩, newString)
        | Slot.deleted =>
          some (⟨st1.slots.set entry (Slot.str newString),
                 st1.numberOfElements + 1, st1.numberOfDeletedElements - 1⟩, newString)
        | Slot.str _ => none

/-! ## String table: counter-level model

The capacity/occupancy dynamics of an insertion of a fresh key through
`LookupKey` (a miss that lands in an empty slot): `EnsureCapacity` on the
counters — `Resize` copies `number_of_elements` and zeroes the deleted count
(string-table.cc:246, 214-218) — followed by `ElementAdded`
(string-table.cc:109-115). -/

structure STCounters where
  capacity : Nat
  numberOfElements : Nat
  numberOfDeletedElements : Nat
  deriving DecidableEq, Repr

/-- Counter projection of `StringTable::EnsureCapacity` (string-table.cc:615-656). -/
def ensureCapacityCounters (st : STCounters) : STCounters :=
  let capacityAfterShrinking :=
    computeStringTableCapacityWithShrink st.capacity (st.numberOfElements + 1)
  if capacityAfterShrinking < st.capacity then
    ⟨capacityAfterShrinking, st.numberOfElements, 0⟩
  else if ¬ stringTableHasSufficientCapacityToAdd st.capacity st.numberOfElements
      st.numberOfDeletedElements 1 then
    ⟨computeStringTableCapacity (st.numberOfElements + 1), st.numberOfElements, 0⟩
  else
    st

/-- Counter effect of one fresh-key insertion through `LookupKey`:
`EnsureCapacity`, then `ElementAdded`. -/
def insertCounters (st : STCounters) : STCounters :=
  let st1 := ensureCapacityCounters st
  ⟨st1.capacity, st1.numberOfElements + 1, st1.numberOfDeletedElements⟩

/-! ## Maglev register allocator: spill slots (maglev-regalloc.cc:1046-1073)

`SpillSlots` is a growing `top` counter plus a free list of
`(slot_index, freed_at_position)` pairs; `UpdateUse`
(maglev-regalloc.cc:388-398) appends to the free list in nondecreasing
`freed_at_position` order (the DCHECK at maglev-regalloc.cc:394-396).
-/

structure SpillSlotInfo where
  slot_index : Nat
  freed_at_position : Nat
  deriving DecidableEq, Repr

structure SpillSlots where
  top : Nat
  free_slots : List SpillSlotInfo
  deriving DecidableEq, Repr

/-- The bisection performed by `std::upper_bound` (as specified and as
implemented by libstdc++ and libc++): while the range `[first, first+len)` is
nonempty, compare at `mid = first + len/2`; if `comp(value, *mid)` restrict to
the left half, else to the right half past `mid`. The comparator is the one at
maglev-regalloc.cc:1061-1063: `slot_info.freed_at_position < start`. -/
def ubAux (l : List SpillSlotInfo) (start : Nat) : Nat → Nat → Nat → Nat
  | 0, first, _ => first
  | fuel + 1, first, len =>
    if len = 0 then first
    else
      let half := len / 2
      if (l.getD (first + half) ⟨0, 0⟩).freed_at_position < start then
        ubAux l start fuel first half
      else
        ubAux l start fuel (first + half + 1) (len - half - 1)

/-- `std::upper_bound(free_slots.begin(), free_slots.end(), start, comp)` as an
index into the list; each bisection step strictly shrinks `len`, so fuel equal
to the initial length never runs out. -/
def upperBound (l : List SpillSlotInfo) (start : Nat) : Nat :=
  ubAux l start l.length 0 l.length

/-- maglev-regalloc.cc:1046-1073 (`AllocateSpillSlot`), for one representation
class: given the value's live-range start, return the updated `SpillSlots` and
the chosen slot number. -/
def allocateSpillSlot (slots : SpillSlots) (start : Nat) : SpillSlots × Nat :=
  if slots.free_slots.isEmpty then
    (⟨slots.top + 1, slots.free_slots⟩, slots.top)
  else
    let i := upperBound slots.free_slots start
    if i < slots.free_slots.length then
      (⟨slots.top, slots.free_slots.eraseIdx i⟩,
       (slots.free_slots.getD i ⟨0, 0⟩).slot_index)
    else
      (⟨slots.top + 1, slots.free_slots⟩, slots.top)

/-! ## Maglev register allocator: FreeSomeRegister (maglev-regalloc.cc:1075-1116) -/

/-- The per-value data `FreeSomeRegister` consults: `live_range().end`,
`next_use()` and `num_registers()`. -/
structure ValueInfo where
  liveRangeEnd : Nat
  nextUse : Nat
  numRegisters : Nat
  deriving DecidableEq, Repr

/-- What a used register holds: the blocked sentinel
(maglev-regalloc.cc:35-38) or a value. -/
inductive Occupant where
  | blockedSentinel
  | value (v : ValueInfo)
  deriving DecidableEq, Repr

inductive AllocationStage where
  | kAtStart
  | kAtEnd
  deriving DecidableEq, Repr

/-- The loop of `FreeSomeRegister` over the used registers in iteration order,
with the accumulator `furthest_use` (starting at 0) and `best` (starting
invalid). The two `break`s of the C++ loop are the early `some reg` returns. -/
def freeSomeRegisterLoop (stage : AllocationStage) (currentId : Nat) :
    List (Nat × Occupant) → Nat → Option Nat → Option Nat
  | [], _, best => best
  | (reg, occ) :: rest, furthestUse, best =>
    match occ with
    | Occupant.blockedSentinel => freeSomeRegisterLoop stage currentId rest furthestUse best
    | Occupant.value v =>
      if stage = AllocationStage.kAtEnd ∧ v.liveRangeEnd = currentId then some reg
      else if v.numRegisters > 1 then some reg
      else if v.nextUse > furthestUse then
        freeSomeRegisterLoop stage currentId rest v.nextUse (some reg)
      else
        freeSomeRegisterLoop stage currentId rest furthestUse best

/-- maglev-regalloc.cc:1075-1116 (`FreeSomeRegister`): the register chosen for
eviction, `none` when no choice is made (the `DCHECK(best.is_valid())` case). -/
def freeSomeRegister (used : List (Nat × Occupant)) (stage : AllocationStage)
    (currentId : Nat) : Option Nat :=
  freeSomeRegisterLoop stage currentId used 0 none

/-! ## Maglev register allocator: SpillAndClearRegisters
(maglev-regalloc.cc:1016-1044)

One register class is a list of register contents in register-code order
(`registers.used().first()` is the first used register in that order).
Modelled from the spec: the `RegisterFrameState` operations `GetValue`,
`AddToFree` and `FreeRegistersUsedBy` live in maglev-regalloc.h, outside src/;
per the spec they read the occupant, mark one register free, and mark every
register holding a given value free. `Spill` (maglev-regalloc.cc:803-811)
makes a non-loadable node loadable by giving it a spill slot; here only the
loadable set matters, so it is modelled as the set of loadable node ids.
-/

inductive RegContents where
  | free
  | blockedReg
  | held (nodeId : Nat)
  deriving DecidableEq, Repr

/-- `Spill` (maglev-regalloc.cc:803-811) restricted to loadability: a no-op on
an already-loadable node, otherwise the node becomes loadable. -/
def spillToLoadable (nodeId : Nat) (loadable : List Nat) : List Nat :=
  if nodeId ∈ loadable then loadable else nodeId :: loadable

/-- `registers.used().first()`: the lowest-numbered used register, as an index
into the register-contents list. -/
def firstUsedIdx : List RegContents → Option Nat
  | [] => none
  | RegContents.free :: rest => (firstUsedIdx rest).map (· + 1)
  | RegContents.blockedReg :: _ => some 0
  | RegContents.held _ :: _ => some 0

/-- The `while (registers.used() != registers.empty())` loop of
`SpillAndClearRegisters` (maglev-regalloc.cc:1016-1039), fuelled; each
iteration takes the first used register and clears it (blocked sentinel) or
spills its value and frees every register holding that value. -/
def spillAndClearLoop : Nat → List RegContents → List Nat → List RegContents × List Nat
  | 0, regs, loadable => (regs, loadable)
  | fuel + 1, regs, loadable =>
    match firstUsedIdx regs with
    | none => (regs, loadable)
    | some i =>
      match regs.getD i RegContents.free with
      | RegContents.free => (regs, loadable)
      | RegContents.blockedReg =>
        spillAndClearLoop fuel (regs.set i RegContents.free) loadable
      | RegContents.held v =>
        spillAndClearLoop fuel
          (regs.map fun c => if c = RegContents.held v then RegContents.free else c)
          (spillToLoadable v loadable)

/-- `SpillAndClearRegisters` for one register class; each loop iteration frees
at least one register, so `regs.length` rounds of fuel always suffice. -/
def spillAndClearRegisters (regs : List RegContents) (loadable : List Nat) :
    List RegContents × List Nat :=
  spillAndClearLoop regs.length regs loadable

/-- maglev-regalloc.cc:1041-1044: the call flush runs over the general
registers and then the double registers, against one shared loadability
state. -/
def spillAndClearAllRegisters (general double : List RegContents) (loadable : List Nat) :
    (List RegContents × List RegContents) × List Nat :=
  let g := spillAndClearRegisters general loadable
  let d := spillAndClearRegisters double g.2
  ((g.1, d.1), d.2)

/-! ## String table: LookupString (string-table.cc:433-506) -/

/-- The view of a heap string that `LookupString` and
`SetInternalizedReference` consult: the underlying table string (identity,
hash, content) plus the predicates on it. `hashIsIntegerIndex` is
`Name::IsIntegerIndex(raw_hash_field)`, `hashIsForwardingIndex` is
`String::IsForwardingIndex` with the decoded index. -/
structure LSString where
  str : VStr
  isInternalizedString : Bool
  isThinString : Bool
  isShared : Bool
  isExternalString : Bool
  hashIsIntegerIndex : Bool
  hashIsForwardingIndex : Bool
  forwardingIndex : Nat
  deriving DecidableEq, Repr

/-- string-table.cc:433-453 (`SetInternalizedReference`) as its effect on the
string forwarding table, a list of (original string id, internalized string)
pairs: shared (or flag-forced) non-external strings without an integer-index
hash get a forwarding entry appended; all other strings are made thin in
place, which never touches the forwarding table. -/
def setInternalizedReference (alwaysUseFwd : Bool) (fwd : List (Nat × VStr))
    (s : LSString) (internalized : VStr) : List (Nat × VStr) :=
  if (s.isShared || alwaysUseFwd) && !s.isExternalString then
    if s.hashIsIntegerIndex then fwd
    else fwd ++ [(s.str.sid, internalized)]
  else fwd

/-- string-table.cc:457-506 (`StringTable::LookupString`), sequentially, with
the result `r` of `String::Flatten` supplied as an argument: if `r` is already
internalized it is the result; otherwise the forwarding index is resolved
through the forwarding table, or the table lookup `LookupKey` runs. Finally,
if the result is a different object than the input and the input is not a thin
string, `SetInternalizedReference` runs. Returns the new string table, the new
forwarding table, and the resulting string. -/
def lookupString (alwaysUseFwd : Bool) (st : STData) (fwd : List (Nat × VStr))
    (s r : LSString) (newId : Nat) : Option (STData × List (Nat × VStr) × VStr) :=
  let afterLookup : Option (STData × VStr) :=
    if r.isInternalizedString then some (st, r.str)
    else if r.hashIsForwardingIndex then
      match fwd.get? r.forwardingIndex with
      | none => none
      | some e => some (st, e.2)
    else
      lookupKey st ⟨r.str.hash, r.str.content⟩ newId
  match afterLookup with
  | none => none
  | some (st2, result) =>
    let fwd2 :=
      if s.str.sid ≠ result.sid ∧ s.isThinString = false then
        setInternalizedReference alwaysUseFwd fwd s result
      else fwd
    some (st2, fwd2, result)

/-! ## Derived definitions used in statements and proofs -/

/-- Triangular numbers: the cumulative offset added to the hash by the probe
sequence after `a` steps. -/
def triangle : Nat → Nat
  | 0 => 0
  | a + 1 => triangle a + (a + 1)

/-- The key a stored string is looked up by. -/
def keyOf (s : VStr) : Key :=
  ⟨s.hash, s.content⟩

/-- A slot an insertion may use: the empty or the deleted sentinel. -/
def isFreeSlot : Slot → Bool
  | Slot.empty => true
  | Slot.deleted => true
  | Slot.str _ => false

/-- A slot holding a live string. -/
def isStrSlot : Slot → Bool
  | Slot.str _ => true
  | _ => false

/-- Evidence that key `k` is found by walking the probe sequence of table `t`:
some attempt `a` hits a matching live string and every earlier attempt hits a
live (hence non-empty) slot. -/
def findableAt (t : List Slot) (k : Key) (a : Nat) : Prop :=
  (∃ s1, t.getD (probeSeq k.hash t.length a) Slot.empty = Slot.str s1 ∧
    keyIsMatch k s1 = true) ∧
  ∀ m, m < a → ∃ s0, t.getD (probeSeq k.hash t.length m) Slot.empty = Slot.str s0

/-- The number of used (non-free) registers of one register class. -/
def usedCount (regs : List RegContents) : Nat :=
  regs.countP fun c => decide (c ≠ RegContents.free)

/-- The two early-exit criteria of the eviction loop
(maglev-regalloc.cc:1088-1101): the occupant dies at the current node while
allocating at the end stage, or the occupant also lives in another register. -/
def evictionPreferred (stage : AllocationStage) (currentId : Nat) : Occupant → Bool
  | Occupant.blockedSentinel => false
  | Occupant.value v =>
    (decide (stage = AllocationStage.kAtEnd) && decide (v.liveRangeEnd = currentId)) ||
    decide (v.numRegisters > 1)

/-! # Theorems -/

lemma triangle_eq (a : Nat) : triangle a = a * (a + 1) / 2 := by
  induction a with
  | zero => rfl
  | succ a ih =>
    obtain ⟨m, hm⟩ := Nat.even_mul_succ_self a
    have h1 : a * (a + 1) = 2 * m := by omega
    have h2 : (a + 1) * (a + 1 + 1) = a * (a + 1) + 2 * (a + 1) := by ring
    rw [triangle, ih, h1, h2, h1]
    omega

lemma probeSeq_pow2 (h c k : Nat) (hc : c = 2 ^ k) (a : Nat) :
    probeSeq h c a = (h + triangle a) % c := by
  subst hc
  induction a with
  | zero =>
    show firstProbe h (2 ^ k) = (h + triangle 0) % 2 ^ k
    rw [firstProbe, Nat.and_pow_two_sub_one_eq_mod, triangle, Nat.add_zero]
  | succ a ih =>
    show nextProbe (probeSeq h (2 ^ k) a) (a + 1) (2 ^ k) = (h + triangle (a + 1)) % 2 ^ k
    rw [nextProbe, ih, Nat.and_pow_two_sub_one_eq_mod, Nat.mod_add_mod, triangle,
      Nat.add_assoc]

/-- C4 (corrected): the probe sequence is not linear in the attempt number; at
probe attempt 2 for hash 0 in a table of capacity 2048 the slot inspected is
3, not (0 + 2) mod 2048 = 2. -/
theorem probe_sequence_not_linear :
    probeSeq 0 2048 2 = 3 ∧ (0 + 2) % 2048 = 2 ∧
    probeSeq 0 2048 2 ≠ (0 + 2) % 2048 := by
  decide

/-- C4 (amended): for every lookup and insertion, probe attempt `i` inspects
slot `(hash + i*(i+1)/2) mod capacity`; equivalently each attempt adds the
attempt number to the previous slot, starting from `hash mod capacity`. -/
theorem probe_sequence_is_triangular (h c k i : Nat) (hc : c = 2 ^ k) :
    probeSeq h c i = (h + i * (i + 1) / 2) % c := by
  rw [probeSeq_pow2 h c k hc i, triangle_eq]

/-- Witness for C4's amended theorem at hash 5, capacity 8, attempt 4. -/
theorem probe_sequence_is_triangular_witness :
    probeSeq 5 8 4 = (5 + 4 * (4 + 1) / 2) % 8 :=
  probe_sequence_is_triangular 5 8 3 4 (by decide)

lemma le_ceilPow2Aux (fuel x : Nat) (h : x ≤ fuel) : x ≤ ceilPow2Aux fuel x := by
  induction fuel generalizing x with
  | zero => simp only [ceilPow2Aux]; omega
  | succ fuel ih =>
    simp only [ceilPow2Aux]
    split_ifs with h1
    · omega
    · have hih := ih ((x + 1) / 2) (by omega)
      omega

lemma ceilPow2Aux_pow2 (fuel x : Nat) : ∃ j, ceilPow2Aux fuel x = 2 ^ j := by
  induction fuel generalizing x with
  | zero => exact ⟨0, rfl⟩
  | succ fuel ih =>
    simp only [ceilPow2Aux]
    split_ifs with h1
    · exact ⟨0, rfl⟩
    · obtain ⟨j, hj⟩ := ih ((x + 1) / 2)
      exact ⟨j + 1, by rw [hj]; ring⟩

lemma le_computeStringTableCapacity (m : Nat) :
    m + m / 2 ≤ computeStringTableCapacity m :=
  le_trans (le_ceilPow2Aux _ _ le_rfl) (le_max_left _ _)

lemma minCapacity_le_computeStringTableCapacity (m : Nat) :
    kStringTableMinCapacity ≤ computeStringTableCapacity m :=
  le_max_right _ _

lemma computeStringTableCapacity_pow2 (m : Nat) :
    ∃ j, computeStringTableCapacity m = 2 ^ j := by
  simp only [computeStringTableCapacity, roundUpToPowerOfTwo32, kStringTableMinCapacity]
  obtain ⟨j, hj⟩ := ceilPow2Aux_pow2 (m + m / 2) (m + m / 2)
  rw [hj]
  rcases le_total j 11 with hle | hle
  · have h1 : (2 : Nat) ^ j ≤ 2 ^ 11 := Nat.pow_le_pow_right (by norm_num) hle
    have h2 : (2 : Nat) ^ 11 = 2048 := by norm_num
    exact ⟨11, by rw [h2] at h1; rw [max_eq_right h1, ← h2]⟩
  · have h1 : (2 : Nat) ^ 11 ≤ 2 ^ j := Nat.pow_le_pow_right (by norm_num) hle
    have h2 : (2 : Nat) ^ 11 = 2048 := by norm_num
    exact ⟨j, by rw [h2] at h1; exact max_eq_left h1⟩

lemma computeStringTableCapacityWithShrink_eq (c n : Nat) :
    computeStringTableCapacityWithShrink c n =
      if n > c / 4 then c else computeStringTableCapacity n := by
  have hmin := minCapacity_le_computeStringTableCapacity n
  simp only [computeStringTableCapacityWithShrink, kStringTableMaxEmptyFactor]
  split_ifs with h1 h2
  · rfl
  · exact absurd h2 (not_lt.mpr hmin)
  · rfl

/-- C5 (corrected): the shrink decision is not "occupancy at most a quarter of
capacity": with capacity 16384 and occupancy exactly 4096 = 16384/4, the claim
requires a shrink, but `EnsureCapacity` leaves the capacity at 16384, because
`ComputeStringTableCapacityWithShrink` is passed occupancy + 1. -/
theorem shrink_condition_counterexample :
    4096 ≤ 16384 / 4 ∧
    (ensureCapacityCounters ⟨16384, 4096, 0⟩).capacity = 16384 ∧
    computeStringTableCapacityWithShrink 16384 (4096 + 1) = 16384 := by
  decide

/-- C5 (amended): on an `EnsureCapacity` call with current capacity `c` and
occupancy `n`, the table is shrunk exactly when `n + 1 ≤ c / 4` and the
recomputed capacity for `n + 1` elements is below `c`; the shrunken capacity is
that recomputed capacity, which is a power of two and never below the minimum
capacity 2048. -/
theorem shrink_condition (c n : Nat) :
    (computeStringTableCapacityWithShrink c (n + 1) < c ↔
      (n + 1 ≤ c / 4 ∧ computeStringTableCapacity (n + 1) < c)) ∧
    (computeStringTableCapacityWithShrink c (n + 1) < c →
      computeStringTableCapacityWithShrink c (n + 1) =
        computeStringTableCapacity (n + 1) ∧
      kStringTableMinCapacity ≤ computeStringTableCapacityWithShrink c (n + 1) ∧
      ∃ j, computeStringTableCapacityWithShrink c (n + 1) = 2 ^ j) := by
  rw [computeStringTableCapacityWithShrink_eq]
  split_ifs with h1
  · exact ⟨⟨fun h => absurd h (lt_irrefl c), fun h => absurd h.1 (by omega)⟩,
      fun h => absurd h (lt_irrefl c)⟩
  · exact ⟨⟨fun h => ⟨by omega, h⟩, fun h => h.2⟩,
      fun _ => ⟨rfl, minCapacity_le_computeStringTableCapacity _,
        computeStringTableCapacity_pow2 _⟩⟩

/-- Witness for C5's amended theorem: capacity 16384, occupancy 100 does
shrink, to the power of two 2048. -/
theorem shrink_condition_witness :
    computeStringTableCapacityWithShrink 16384 (100 + 1) < 16384 ∧
    computeStringTableCapacityWithShrink 16384 (100 + 1) =
      computeStringTableCapacity (100 + 1) ∧
    kStringTableMinCapacity ≤ computeStringTableCapacityWithShrink 16384 (100 + 1) ∧
    ∃ j, computeStringTableCapacityWithShrink 16384 (100 + 1) = 2 ^ j :=
  ⟨by decide, (shrink_condition 16384 100).2 (by decide)⟩

lemma hasSufficient_imp (c n d : Nat)
    (h : stringTableHasSufficientCapacityToAdd c n d 1 = true) :
    (n + 1) + (n + 1) / 2 ≤ c := by
  simp only [stringTableHasSufficientCapacityToAdd] at h
  split_ifs at h with hcond
  exact of_decide_eq_true h

lemma hasSufficient_eq_true_iff (c n d : Nat) :
    stringTableHasSufficientCapacityToAdd c n d 1 = true ↔
      (n + 1 < c ∧ d ≤ (c - (n + 1)) / 2 ∧ (n + 1) + (n + 1) / 2 ≤ c) := by
  simp only [stringTableHasSufficientCapacityToAdd]
  split_ifs with hcond
  · simp only [decide_eq_true_eq]
    exact ⟨fun h => ⟨hcond.1, hcond.2, h⟩, fun h => h.2.2⟩
  · simp only [false_iff]
    intro h
    exact hcond ⟨h.1, h.2.1⟩

lemma insertCounters_no_resize (c n d : Nat)
    (hshrink : ¬ computeStringTableCapacityWithShrink c (n + 1) < c)
    (hsuff : stringTableHasSufficientCapacityToAdd c n d 1 = true) :
    insertCounters ⟨c, n, d⟩ = ⟨c, n + 1, d⟩ := by
  dsimp only [insertCounters, ensureCapacityCounters]
  rw [if_neg hshrink, if_neg (by simp [hsuff])]

lemma insertCounters_iter_2048 (k : Nat) (hk : k ≤ 1365) :
    insertCounters^[k] ⟨2048, 0, 0⟩ = ⟨2048, k, 0⟩ := by
  induction k with
  | zero => rfl
  | succ k ih =>
    rw [Function.iterate_succ_apply', ih (by omega)]
    apply insertCounters_no_resize
    · rw [computeStringTableCapacityWithShrink_eq]
      split_ifs with h
      · exact lt_irrefl 2048
      · exact not_lt.mpr (minCapacity_le_computeStringTableCapacity (k + 1))
    · rw [hasSufficient_eq_true_iff]
      omega

lemma insertCounters_iter_4096 (k : Nat) (hk : k ≤ 1365) :
    insertCounters^[k] ⟨4096, 1366, 0⟩ = ⟨4096, 1366 + k, 0⟩ := by
  induction k with
  | zero => rfl
  | succ k ih =>
    rw [Function.iterate_succ_apply', ih (by omega)]
    have h := insertCounters_no_resize 4096 (1366 + k) 0
      (by rw [computeStringTableCapacityWithShrink_eq, if_pos (by omega)]
          exact lt_irrefl 4096)
      (by rw [hasSufficient_eq_true_iff]; omega)
    rw [h, Nat.add_assoc]

/-- C2 (corrected): the claimed invariant `occupied * 1.5 ≤ capacity` fails in
exact arithmetic: starting from the initial table (capacity 2048, empty), 2731
fresh-key insertions through `LookupKey` reach occupancy 2731 at capacity 4096,
and 2731 * 1.5 = 4096.5 > 4096 (as integers, 3 * 2731 > 2 * 4096). -/
theorem occupancy_invariant_counterexample :
    insertCounters^[2731] ⟨2048, 0, 0⟩ = ⟨4096, 2731, 0⟩ ∧
    insertCounters ⟨4096, 2730, 0⟩ = ⟨4096, 2731, 0⟩ ∧
    ¬ (3 * 2731 ≤ 2 * 4096) := by
  refine ⟨?_, by decide, by decide⟩
  have hsplit : (2731 : Nat) = 1365 + 1366 := by norm_num
  rw [hsplit, Function.iterate_add_apply]
  have h1366 : insertCounters^[1366] (⟨2048, 0, 0⟩ : STCounters) = ⟨4096, 1366, 0⟩ := by
    rw [Function.iterate_succ_apply', insertCounters_iter_2048 1365 le_rfl]
    decide
  rw [h1366]
  have := insertCounters_iter_4096 1365 le_rfl
  rw [this]

/-- C2 (amended): after every insertion performed through `LookupKey`, the
current generation satisfies `occupied + occupied / 2 ≤ capacity` (the
floor-division form of the 1.5 factor computed by
`StringTableHasSufficientCapacityToAdd`), maintained by the pre-emptive resize
in `EnsureCapacity`. -/
theorem occupancy_invariant (c n d : Nat) :
    (insertCounters ⟨c, n, d⟩).numberOfElements +
      (insertCounters ⟨c, n, d⟩).numberOfElements / 2 ≤
      (insertCounters ⟨c, n, d⟩).capacity := by
  dsimp only [insertCounters, ensureCapacityCounters]
  split_ifs with h1 h2
  · rw [computeStringTableCapacityWithShrink_eq] at h1 ⊢
    split_ifs at h1 ⊢ with h3
    · exact absurd h1 (lt_irrefl c)
    · exact le_computeStringTableCapacity (n + 1)
  · exact hasSufficient_imp c n d h2
  · exact le_computeStringTableCapacity (n + 1)

lemma getD_eq_get {α : Type} (l : List α) (d : α) (i : Nat) (h : i < l.length) :
    l.getD i d = l.get ⟨i, h⟩ := by
  simp [List.getD_eq_getElem?_getD, List.getElem?_eq_getElem h]

lemma sorted_freed_le (l : List SpillSlotInfo)
    (hs : l.Pairwise (fun a b => a.freed_at_position ≤ b.freed_at_position))
    (i j : Nat) (hij : i ≤ j) (hj : j < l.length) :
    (l.getD i ⟨0, 0⟩).freed_at_position ≤ (l.getD j ⟨0, 0⟩).freed_at_position := by
  rcases Nat.eq_or_lt_of_le hij with rfl | hlt
  · exact le_rfl
  · have hi : i < l.length := lt_trans hlt hj
    rw [getD_eq_get l _ i hi, getD_eq_get l _ j hj]
    exact List.pairwise_iff_get.mp hs ⟨i, hi⟩ ⟨j, hj⟩ hlt

lemma ubAux_all_lt (l : List SpillSlotInfo) (start : Nat) :
    ∀ fuel first len, len ≤ fuel →
      (∀ m, first ≤ m → m < first + len →
        (l.getD m ⟨0, 0⟩).freed_at_position < start) →
      ubAux l start fuel first len = first := by
  intro fuel
  induction fuel with
  | zero => intro first len _ _; rfl
  | succ fuel ih =>
    intro first len hlen hall
    simp only [ubAux]
    split_ifs with h0 hcmp
    · rfl
    · exact ih first (len / 2) (by omega) fun m h1 h2 => hall m h1 (by omega)
    · exact absurd (hall (first + len / 2) (by omega) (by omega)) hcmp

lemma ubAux_all_ge (l : List SpillSlotInfo) (start : Nat) :
    ∀ fuel first len, len ≤ fuel →
      (∀ m, first ≤ m → m < first + len →
        ¬ (l.getD m ⟨0, 0⟩).freed_at_position < start) →
      ubAux l start fuel first len = first + len := by
  intro fuel
  induction fuel with
  | zero =>
    intro first len hlen _
    have h0 : len = 0 := by omega
    subst h0
    rfl
  | succ fuel ih =>
    intro first len hlen hall
    simp only [ubAux]
    split_ifs with h0 hcmp
    · omega
    · exact absurd hcmp (hall (first + len / 2) (by omega) (by omega))
    · rw [ih (first + len / 2 + 1) (len - len / 2 - 1) (by omega)
        (fun m h1 h2 => hall m (by omega) (by omega))]
      omega

lemma upperBound_sorted_lo (l : List SpillSlotInfo) (start : Nat)
    (hs : l.Pairwise (fun a b => a.freed_at_position ≤ b.freed_at_position))
    (h0 : l ≠ [])
    (hcmp : (l.getD (l.length / 2) ⟨0, 0⟩).freed_at_position < start) :
    upperBound l start = 0 := by
  have hlen : 0 < l.length := List.length_pos.mpr h0
  obtain ⟨n, hn⟩ : ∃ n, l.length = n + 1 := ⟨l.length - 1, by omega⟩
  unfold upperBound
  rw [hn]
  simp only [ubAux]
  rw [if_neg (Nat.succ_ne_zero n), if_pos (by rw [Nat.zero_add]; rw [hn] at hcmp; exact hcmp)]
  apply ubAux_all_lt l start n 0 ((n + 1) / 2) (by omega)
  intro m h1 h2
  have hmle : m ≤ (n + 1) / 2 := by omega
  have := sorted_freed_le l hs m ((n + 1) / 2) hmle (by omega)
  rw [hn] at hcmp
  omega

lemma upperBound_sorted_hi (l : List SpillSlotInfo) (start : Nat)
    (hs : l.Pairwise (fun a b => a.freed_at_position ≤ b.freed_at_position))
    (h0 : l ≠ [])
    (hcmp : ¬ (l.getD (l.length / 2) ⟨0, 0⟩).freed_at_position < start) :
    upperBound l start = l.length := by
  have hlen : 0 < l.length := List.length_pos.mpr h0
  obtain ⟨n, hn⟩ : ∃ n, l.length = n + 1 := ⟨l.length - 1, by omega⟩
  unfold upperBound
  rw [hn]
  simp only [ubAux]
  rw [if_neg (Nat.succ_ne_zero n), if_neg (by rw [Nat.zero_add]; rw [hn] at hcmp; exact hcmp)]
  rw [ubAux_all_ge l start n (0 + (n + 1) / 2 + 1) (n + 1 - (n + 1) / 2 - 1) (by omega) ?_]
  · omega
  · intro m h1 h2
    have := sorted_freed_le l hs ((n + 1) / 2) m (by omega) (by omega)
    rw [hn] at hcmp
    omega

/-- C6 (corrected): `AllocateSpillSlot` does not reuse "the first free-list
entry with `freed_at_position ≤ start`": with the (ascending, as maintained by
`UpdateUse`) free list [(slot 0, freed 1), (slot 1, freed 5), (slot 2, freed
10)] and a value whose live range starts at 3, entry 0 is eligible (freed 1 ≤
3) but the allocator takes a fresh slot from the top counter instead. -/
theorem allocate_spill_slot_counterexample :
    (([⟨0, 1⟩, ⟨1, 5⟩, ⟨2, 10⟩] : List SpillSlotInfo).getD 0 ⟨0, 0⟩).freed_at_position ≤ 3 ∧
    allocateSpillSlot ⟨3, [⟨0, 1⟩, ⟨1, 5⟩, ⟨2, 10⟩]⟩ 3 =
      (⟨4, [⟨0, 1⟩, ⟨1, 5⟩, ⟨2, 10⟩]⟩, 3) := by
  decide

/-- C6 (amended): with a non-empty free list, `AllocateSpillSlot` runs the
`std::upper_bound` bisection with comparator `freed_at_position < start`, which
expects a list descending in `freed_at_position`; on the ascending list the
allocator maintains, the bisection reuses the first (oldest) free-list entry
exactly when the middle entry satisfies `freed_at_position < start`, and
otherwise takes a fresh slot by incrementing the top counter. -/
theorem allocate_spill_slot_bisection (t : Nat) (l : List SpillSlotInfo) (start : Nat)
    (hs : l.Pairwise (fun a b => a.freed_at_position ≤ b.freed_at_position))
    (h0 : l ≠ []) :
    ((l.getD (l.length / 2) ⟨0, 0⟩).freed_at_position < start →
      allocateSpillSlot ⟨t, l⟩ start =
        (⟨t, l.eraseIdx 0⟩, (l.getD 0 ⟨0, 0⟩).slot_index)) ∧
    (¬ (l.getD (l.length / 2) ⟨0, 0⟩).freed_at_position < start →
      allocateSpillSlot ⟨t, l⟩ start = (⟨t + 1, l⟩, t)) := by
  have hlen : 0 < l.length := List.length_pos.mpr h0
  have hne : ¬ (l.isEmpty = true) := by
    simp only [List.isEmpty_iff]
    exact h0
  constructor
  · intro hcmp
    unfold allocateSpillSlot
    rw [if_neg hne]
    simp only [upperBound_sorted_lo l start hs h0 hcmp]
    rw [if_pos hlen]
  · intro hcmp
    unfold allocateSpillSlot
    rw [if_neg hne]
    simp only [upperBound_sorted_hi l start hs h0 hcmp]
    rw [if_neg (lt_irrefl l.length)]

/-- Witness for C6's amended theorem: on the ascending free list [(0,1), (1,2),
(2,3)] with start 5 the middle entry was freed before 5, so slot 0 is reused. -/
theorem allocate_spill_slot_bisection_witness :
    allocateSpillSlot ⟨7, [⟨0, 1⟩, ⟨1, 2⟩, ⟨2, 3⟩]⟩ 5 =
      (⟨7, ([⟨0, 1⟩, ⟨1, 2⟩, ⟨2, 3⟩] : List SpillSlotInfo).eraseIdx 0⟩,
       (([⟨0, 1⟩, ⟨1, 2⟩, ⟨2, 3⟩] : List SpillSlotInfo).getD 0 ⟨0, 0⟩).slot_index) :=
  (allocate_spill_slot_bisection 7 [⟨0, 1⟩, ⟨1, 2⟩, ⟨2, 3⟩] 5
    (by decide) (by decide)).1 (by decide)

/-- C7: whenever `AllocateSpillSlot` reuses a free-list entry (the
`upper_bound` result is inside the list), the reused entry's
`freed_at_position` is at most (in fact strictly before) the value's live-range
start, given the free list is sorted ascending by `freed_at_position` as
`UpdateUse` maintains; hence a reused slot's previous owner died before the new
owner's live range starts. -/
theorem reused_slot_freed_before_start (t : Nat) (l : List SpillSlotInfo) (start : Nat)
    (hs : l.Pairwise (fun a b => a.freed_at_position ≤ b.freed_at_position))
    (hreuse : upperBound l start < l.length) :
    (l.getD (upperBound l start) ⟨0, 0⟩).freed_at_position ≤ start ∧
    allocateSpillSlot ⟨t, l⟩ start =
      (⟨t, l.eraseIdx (upperBound l start)⟩,
       (l.getD (upperBound l start) ⟨0, 0⟩).slot_index) := by
  have hlen : 0 < l.length := by omega
  have h0 : l ≠ [] := List.length_pos.mp hlen
  have hne : ¬ (l.isEmpty = true) := by
    simp only [List.isEmpty_iff]
    exact h0
  by_cases hcmp : (l.getD (l.length / 2) ⟨0, 0⟩).freed_at_position < start
  · have hub := upperBound_sorted_lo l start hs h0 hcmp
    have hmono := sorted_freed_le l hs 0 (l.length / 2) (by omega) (by omega)
    constructor
    · rw [hub]
      omega
    · unfold allocateSpillSlot
      rw [if_neg hne, if_pos hreuse]
  · rw [upperBound_sorted_hi l start hs h0 hcmp] at hreuse
    exact absurd hreuse (lt_irrefl l.length)

/-- Witness for C7 at the free list [(0,1), (1,2), (2,3)] and start 5. -/
theorem reused_slot_freed_before_start_witness :
    (([⟨0, 1⟩, ⟨1, 2⟩, ⟨2, 3⟩] : List SpillSlotInfo).getD
        (upperBound [⟨0, 1⟩, ⟨1, 2⟩, ⟨2, 3⟩] 5) ⟨0, 0⟩).freed_at_position ≤ 5 ∧
    allocateSpillSlot ⟨9, [⟨0, 1⟩, ⟨1, 2⟩, ⟨2, 3⟩]⟩ 5 =
      (⟨9, ([⟨0, 1⟩, ⟨1, 2⟩, ⟨2, 3⟩] : List SpillSlotInfo).eraseIdx
            (upperBound [⟨0, 1⟩, ⟨1, 2⟩, ⟨2, 3⟩] 5)⟩,
       (([⟨0, 1⟩, ⟨1, 2⟩, ⟨2, 3⟩] : List SpillSlotInfo).getD
          (upperBound [⟨0, 1⟩, ⟨1, 2⟩, ⟨2, 3⟩] 5) ⟨0, 0⟩).slot_index) :=
  reused_slot_freed_before_start 9 [⟨0, 1⟩, ⟨1, 2⟩, ⟨2, 3⟩] 5 (by decide) (by decide)

lemma freeSomeRegisterLoop_find (stage : AllocationStage) (currentId : Nat) :
    ∀ (l : List (Nat × Occupant)) (fu : Nat) (best : Option Nat) (rc : Nat × Occupant),
      l.find? (fun x => evictionPreferred stage currentId x.2) = some rc →
      freeSomeRegisterLoop stage currentId l fu best = some rc.1 := by
  intro l
  induction l with
  | nil => intro fu best rc h; cases h
  | cons hd tl ih =>
    intro fu best rc h
    obtain ⟨reg, occ⟩ := hd
    cases occ with
    | blockedSentinel =>
      rw [List.find?_cons_of_neg _ (by simp [evictionPreferred])] at h
      exact ih fu best rc h
    | value v =>
      by_cases h1 : stage = AllocationStage.kAtEnd ∧ v.liveRangeEnd = currentId
      · rw [List.find?_cons_of_pos _ (by simp [evictionPreferred, h1.1, h1.2])] at h
        obtain rfl : ((reg, Occupant.value v) : Nat × Occupant) = rc := by injection h
        simp only [freeSomeRegisterLoop]
        rw [if_pos h1]
      · by_cases h2 : v.numRegisters > 1
        · rw [List.find?_cons_of_pos _ (by simp [evictionPreferred, h2])] at h
          obtain rfl : ((reg, Occupant.value v) : Nat × Occupant) = rc := by injection h
          simp only [freeSomeRegisterLoop]
          rw [if_neg h1, if_pos h2]
        · rw [List.find?_cons_of_neg _ (by
            simp only [evictionPreferred, Bool.or_eq_true, Bool.and_eq_true,
              decide_eq_true_eq]
            push_neg
            exact ⟨fun ha hb => h1 ⟨ha, hb⟩, by omega⟩)] at h
          simp only [freeSomeRegisterLoop]
          rw [if_neg h1, if_neg h2]
          split_ifs with h3
          · exact ih _ _ rc h
          · exact ih _ _ rc h

lemma freeSomeRegisterLoop_max (stage : AllocationStage) (currentId : Nat) :
    ∀ (l : List (Nat × Occupant)) (fu : Nat) (best : Option Nat) (r : Nat),
      l.find? (fun x => evictionPreferred stage currentId x.2) = none →
      freeSomeRegisterLoop stage currentId l fu best = some r →
      ((some r = best ∧ ∀ r2 v2, (r2, Occupant.value v2) ∈ l → v2.nextUse ≤ fu) ∨
       (∃ v, (r, Occupant.value v) ∈ l ∧ fu < v.nextUse ∧
         ∀ r2 v2, (r2, Occupant.value v2) ∈ l → v2.nextUse ≤ v.nextUse)) := by
  intro l
  induction l with
  | nil =>
    intro fu best r _ hl
    simp only [freeSomeRegisterLoop] at hl
    left
    exact ⟨hl.symm, by simp⟩
  | cons hd tl ih =>
    intro fu best r hf hl
    have hf2 : ∀ x ∈ hd :: tl, ¬ (evictionPreferred stage currentId x.2 = true) :=
      List.find?_eq_none.mp hf
    have hftl : tl.find? (fun x => evictionPreferred stage currentId x.2) = none :=
      List.find?_eq_none.mpr fun x hx => hf2 x (List.mem_cons_of_mem hd hx)
    obtain ⟨reg, occ⟩ := hd
    cases occ with
    | blockedSentinel =>
      simp only [freeSomeRegisterLoop] at hl
      rcases ih fu best r hftl hl with ⟨hb, hmax⟩ | ⟨v, hmem, hfu, hmax⟩
      · refine Or.inl ⟨hb, fun r2 v2 hm => ?_⟩
        rcases List.mem_cons.mp hm with heq | hm2
        · simp at heq
        · exact hmax r2 v2 hm2
      · refine Or.inr ⟨v, List.mem_cons_of_mem _ hmem, hfu, fun r2 v2 hm => ?_⟩
        rcases List.mem_cons.mp hm with heq | hm2
        · simp at heq
        · exact hmax r2 v2 hm2
    | value v =>
      have hpv := hf2 (reg, Occupant.value v) (List.mem_cons_self _ _)
      have h1 : ¬ (stage = AllocationStage.kAtEnd ∧ v.liveRangeEnd = currentId) := by
        intro hc
        exact hpv (by simp [evictionPreferred, hc.1, hc.2])
      have h2 : ¬ (v.numRegisters > 1) := by
        intro hc
        exact hpv (by simp [evictionPreferred, hc])
      simp only [freeSomeRegisterLoop] at hl
      rw [if_neg h1, if_neg h2] at hl
      split_ifs at hl with h3
      · rcases ih v.nextUse (some reg) r hftl hl with ⟨hb, hmax⟩ | ⟨v2, hmem, hfu2, hmax⟩
        · obtain rfl : r = reg := by injection hb
          refine Or.inr ⟨v, List.mem_cons_self _ _, h3, fun r2 v2 hm => ?_⟩
          rcases List.mem_cons.mp hm with heq | hm2
          · injection heq with h4 h5
            injection h5 with h5
            subst h5
            exact le_rfl
          · exact hmax r2 v2 hm2
        · refine Or.inr ⟨v2, List.mem_cons_of_mem _ hmem, by omega, fun r2 v3 hm => ?_⟩
          rcases List.mem_cons.mp hm with heq | hm2
          · injection heq with h4 h5
            injection h5 with h5
            subst h5
            omega
          · exact hmax r2 v3 hm2
      · rcases ih fu best r hftl hl with ⟨hb, hmax⟩ | ⟨v2, hmem, hfu2, hmax⟩
        · refine Or.inl ⟨hb, fun r2 v3 hm => ?_⟩
          rcases List.mem_cons.mp hm with heq | hm2
          · injection heq with h4 h5
            injection h5 with h5
            subst h5
            omega
          · exact hmax r2 v3 hm2
        · refine Or.inr ⟨v2, List.mem_cons_of_mem _ hmem, hfu2, fun r2 v3 hm => ?_⟩
          rcases List.mem_cons.mp hm with heq | hm2
          · injection heq with h4 h5
            injection h5 with h5
            subst h5
            omega
          · exact hmax r2 v3 hm2

/-- C8 (corrected): the eviction loop breaks at the first register in
iteration order satisfying criterion (i) or criterion (ii); it does not prefer
(i) over (ii) globally. Here register 0 holds a value present in two registers
(criterion ii) and register 2 holds a value whose live range ends exactly at
the current node with the at-end stage (criterion i); the claim's preference
order requires register 2, but the code picks register 0. -/
theorem free_some_register_counterexample :
    freeSomeRegister
      [(0, Occupant.value ⟨10, 7, 2⟩), (1, Occupant.value ⟨10, 7, 2⟩),
       (2, Occupant.value ⟨5, 5, 1⟩)] AllocationStage.kAtEnd 5 = some 0 ∧
    (ValueInfo.liveRangeEnd ⟨5, 5, 1⟩ = 5 ∧ ValueInfo.numRegisters ⟨10, 7, 2⟩ > 1 ∧
     ValueInfo.liveRangeEnd ⟨10, 7, 2⟩ ≠ 5) ∧
    (0 : Nat) ≠ 2 := by
  decide

/-- C8 (amended): `FreeSomeRegister` picks the first register in iteration
order whose value either dies at the current node while allocating at the end
stage or is present in at least two registers; when no register satisfies
either criterion, it picks a register whose value has the maximal (non-zero)
next-use position among all values held in the non-blocked used registers. -/
theorem free_some_register_choice (used : List (Nat × Occupant))
    (stage : AllocationStage) (currentId r : Nat)
    (hr : freeSomeRegister used stage currentId = some r) :
    (∀ rc, used.find? (fun x => evictionPreferred stage currentId x.2) = some rc →
      r = rc.1) ∧
    (used.find? (fun x => evictionPreferred stage currentId x.2) = none →
      ∃ v, (r, Occupant.value v) ∈ used ∧ 0 < v.nextUse ∧
        ∀ r2 v2, (r2, Occupant.value v2) ∈ used → v2.nextUse ≤ v.nextUse) := by
  constructor
  · intro rc hfind
    have := freeSomeRegisterLoop_find stage currentId used 0 none rc hfind
    rw [freeSomeRegister] at hr
    rw [this] at hr
    injection hr with hr
    exact hr.symm
  · intro hfind
    rcases freeSomeRegisterLoop_max stage currentId used 0 none r hfind hr with
      ⟨hb, _⟩ | ⟨v, hmem, hfu, hmax⟩
    · cases hb
    · exact ⟨v, hmem, hfu, hmax⟩

/-- Witness for C8's amended theorem: with no criterion-(i)/(ii) register, the
loop picks the value with the furthest next use. -/
theorem free_some_register_choice_witness :
    ∃ v, ((4 : Nat), Occupant.value v) ∈
        [((3 : Nat), Occupant.value ⟨9, 1, 1⟩), (4, Occupant.value ⟨9, 6, 1⟩),
         (5, Occupant.value ⟨9, 2, 1⟩)] ∧
      0 < v.nextUse ∧
      ∀ r2 v2, (r2, Occupant.value v2) ∈
          [((3 : Nat), Occupant.value ⟨9, 1, 1⟩), (4, Occupant.value ⟨9, 6, 1⟩),
           (5, Occupant.value ⟨9, 2, 1⟩)] → v2.nextUse ≤ v.nextUse :=
  (free_some_register_choice
    [(3, Occupant.value ⟨9, 1, 1⟩), (4, Occupant.value ⟨9, 6, 1⟩),
     (5, Occupant.value ⟨9, 2, 1⟩)] AllocationStage.kAtStart 0 4 (by decide)).2 (by decide)

lemma firstUsedIdx_none (regs : List RegContents) (h : firstUsedIdx regs = none) :
    ∀ c ∈ regs, c = RegContents.free := by
  induction regs with
  | nil => intro c hc; cases hc
  | cons hd tl ih =>
    intro c hc
    cases hd with
    | free =>
      simp only [firstUsedIdx, Option.map_eq_none'] at h
      rcases List.mem_cons.mp hc with rfl | hc2
      · rfl
      · exact ih h c hc2
    | blockedReg => cases h
    | held v => cases h

lemma firstUsedIdx_some (regs : List RegContents) (i : Nat)
    (h : firstUsedIdx regs = some i) :
    i < regs.length ∧ regs.getD i RegContents.free ≠ RegContents.free := by
  induction regs generalizing i with
  | nil => cases h
  | cons hd tl ih =>
    cases hd with
    | free =>
      simp only [firstUsedIdx, Option.map_eq_some'] at h
      obtain ⟨j, hj, rfl⟩ := h
      obtain ⟨hlt, hne⟩ := ih j hj
      exact ⟨by simpa using hlt, by simpa using hne⟩
    | blockedReg =>
      obtain rfl : i = 0 := by injection h with h; exact h.symm
      exact ⟨by simp, by simp⟩
    | held v =>
      obtain rfl : i = 0 := by injection h with h; exact h.symm
      exact ⟨by simp, by simp⟩

lemma usedCount_zero_all_free (regs : List RegContents) (h : usedCount regs = 0) :
    ∀ c ∈ regs, c = RegContents.free := by
  intro c hc
  have := List.countP_eq_zero.mp h c hc
  simpa using this

lemma usedCount_set_free (regs : List RegContents) (i : Nat) (hi : i < regs.length)
    (hne : regs.getD i RegContents.free ≠ RegContents.free) :
    usedCount (regs.set i RegContents.free) + 1 = usedCount regs := by
  induction regs generalizing i with
  | nil => cases hi
  | cons hd tl ih =>
    cases i with
    | zero =>
      simp only [List.getD_cons_zero] at hne
      simp only [List.set_cons_zero, usedCount, List.countP_cons]
      simp [hne]
    | succ j =>
      simp only [List.getD_cons_succ] at hne
      simp only [List.set_cons_succ, usedCount, List.countP_cons]
      have := ih j (by simpa using hi) hne
      simp only [usedCount] at this
      omega

lemma usedCount_map_free_le (regs : List RegContents) (v : Nat) :
    usedCount (regs.map fun c =>
      if c = RegContents.held v then RegContents.free else c) ≤ usedCount regs := by
  simp only [usedCount, List.countP_map]
  apply List.countP_mono_left
  intro c _ hc
  simp only [Function.comp] at hc
  split_ifs at hc with hv
  · cases hc
  · exact hc

lemma usedCount_map_free_cons (hd : RegContents) (tl : List RegContents) (v : Nat) :
    usedCount ((hd :: tl).map fun c =>
        if c = RegContents.held v then RegContents.free else c) =
      usedCount (tl.map fun c =>
        if c = RegContents.held v then RegContents.free else c) +
      usedCount [if hd = RegContents.held v then RegContents.free else hd] := by
  simp only [usedCount, List.map_cons, List.countP_cons, List.countP_nil]
  omega

lemma usedCount_cons (hd : RegContents) (tl : List RegContents) :
    usedCount (hd :: tl) = usedCount tl + usedCount [hd] := by
  simp only [usedCount, List.countP_cons, List.countP_nil]
  omega

lemma usedCount_single_map_le (hd : RegContents) (v : Nat) :
    usedCount [if hd = RegContents.held v then RegContents.free else hd] ≤
      usedCount [hd] := by
  by_cases hhd : hd = RegContents.held v
  · subst hhd
    rw [if_pos rfl]
    simp [usedCount]
  · rw [if_neg hhd]

lemma usedCount_map_free_lt (regs : List RegContents) (i v : Nat)
    (hi : i < regs.length) (hv : regs.getD i RegContents.free = RegContents.held v) :
    usedCount (regs.map fun c =>
      if c = RegContents.held v then RegContents.free else c) < usedCount regs := by
  induction regs generalizing i with
  | nil => cases hi
  | cons hd tl ih =>
    cases i with
    | zero =>
      simp only [List.getD_cons_zero] at hv
      subst hv
      rw [usedCount_map_free_cons (RegContents.held v) tl v,
        usedCount_cons (RegContents.held v) tl, if_pos rfl]
      have hle2 := usedCount_map_free_le tl v
      have h1 : usedCount [RegContents.free] = 0 := by simp [usedCount]
      have h2 : usedCount [RegContents.held v] = 1 := by simp [usedCount]
      omega
    | succ j =>
      simp only [List.getD_cons_succ] at hv
      rw [usedCount_map_free_cons hd tl v, usedCount_cons hd tl]
      have hstrict := ih j (by simpa using hi) hv
      have hle := usedCount_single_map_le hd v
      omega

lemma mem_set_of_getD_ne {α : Type} (l : List α) (i : Nat) (a b d : α)
    (hmem : a ∈ l) (hne : l.getD i d ≠ a) : a ∈ l.set i b := by
  induction l generalizing i with
  | nil => cases hmem
  | cons hd tl ih =>
    cases i with
    | zero =>
      simp only [List.getD_cons_zero] at hne
      rcases List.mem_cons.mp hmem with rfl | hm2
      · exact absurd rfl hne
      · exact List.mem_cons_of_mem _ (by simpa using hm2)
    | succ j =>
      simp only [List.getD_cons_succ] at hne
      rcases List.mem_cons.mp hmem with rfl | hm2
      · exact List.mem_cons_self _ _
      · exact List.mem_cons_of_mem _ (ih j hm2 hne)

lemma mem_spillToLoadable_self (v : Nat) (loadable : List Nat) :
    v ∈ spillToLoadable v loadable := by
  unfold spillToLoadable
  split_ifs with h
  · exact h
  · exact List.mem_cons_self _ _

lemma mem_spillToLoadable_of_mem (v x : Nat) (loadable : List Nat)
    (h : x ∈ loadable) : x ∈ spillToLoadable v loadable := by
  unfold spillToLoadable
  split_ifs with hv
  · exact h
  · exact List.mem_cons_of_mem _ h

lemma spillAndClearLoop_spec :
    ∀ (fuel : Nat) (regs : List RegContents) (loadable : List Nat),
      usedCount regs ≤ fuel →
      (∀ c ∈ (spillAndClearLoop fuel regs loadable).1, c = RegContents.free) ∧
      (∀ v, RegContents.held v ∈ regs → v ∈ (spillAndClearLoop fuel regs loadable).2) ∧
      (∀ x ∈ loadable, x ∈ (spillAndClearLoop fuel regs loadable).2) := by
  intro fuel
  induction fuel with
  | zero =>
    intro regs loadable hcount
    have hall := usedCount_zero_all_free regs (by omega)
    refine ⟨hall, fun v hv => ?_, fun x hx => hx⟩
    exact absurd (hall _ hv) (by simp)
  | succ fuel ih =>
    intro regs loadable hcount
    cases hfu : firstUsedIdx regs with
    | none =>
      have hall := firstUsedIdx_none regs hfu
      simp only [spillAndClearLoop, hfu]
      exact ⟨hall, fun v hv => absurd (hall _ hv) (by simp), fun x hx => hx⟩
    | some i =>
      obtain ⟨hlt, hne⟩ := firstUsedIdx_some regs i hfu
      cases hgd : regs.getD i RegContents.free with
      | free => exact absurd hgd hne
      | blockedReg =>
        simp only [spillAndClearLoop, hfu, hgd]
        have hdec := usedCount_set_free regs i hlt hne
        obtain ⟨h1, h2, h3⟩ := ih (regs.set i RegContents.free) loadable (by omega)
        refine ⟨h1, fun v hv => ?_, h3⟩
        exact h2 v (mem_set_of_getD_ne regs i _ _ _ hv (by rw [hgd]; simp))
      | held v0 =>
        simp only [spillAndClearLoop, hfu, hgd]
        have hdec := usedCount_map_free_lt regs i v0 hlt hgd
        obtain ⟨h1, h2, h3⟩ := ih
          (regs.map fun c => if c = RegContents.held v0 then RegContents.free else c)
          (spillToLoadable v0 loadable) (by omega)
        refine ⟨h1, fun v hv => ?_, fun x hx => h3 x (mem_spillToLoadable_of_mem _ _ _ hx)⟩
        by_cases hvv : v = v0
        · subst hvv
          exact h3 v (mem_spillToLoadable_self v loadable)
        · have hmm : RegContents.held v ∈ regs.map
              (fun c => if c = RegContents.held v0 then RegContents.free else c) := by
            have h5 := List.mem_map_of_mem
              (fun c => if c = RegContents.held v0 then RegContents.free else c) hv
            simpa [hvv] using h5
          exact h2 v hmm

/-- C9: after the register flush performed by `AllocateNode` for call nodes
(`SpillAndClearRegisters` over the general and then the double register
class), every register of both classes is free — no value and no blocked
sentinel from before the call survives — and every value previously held in a
register has been spilled, so it is loadable from a stack slot. -/
theorem call_flush_clears_registers (general double : List RegContents)
    (loadable : List Nat) :
    (∀ c ∈ (spillAndClearAllRegisters general double loadable).1.1,
      c = RegContents.free) ∧
    (∀ c ∈ (spillAndClearAllRegisters general double loadable).1.2,
      c = RegContents.free) ∧
    (∀ v, RegContents.held v ∈ general ∨ RegContents.held v ∈ double →
      v ∈ (spillAndClearAllRegisters general double loadable).2) := by
  unfold spillAndClearAllRegisters spillAndClearRegisters
  obtain ⟨hg1, hg2, hg3⟩ :=
    spillAndClearLoop_spec general.length general loadable
      (List.countP_le_length _)
  obtain ⟨hd1, hd2, hd3⟩ :=
    spillAndClearLoop_spec double.length double
      (spillAndClearLoop general.length general loadable).2
      (List.countP_le_length _)
  refine ⟨hg1, hd1, fun v hv => ?_⟩
  rcases hv with hv | hv
  · exact hd3 v (hg2 v hv)
  · exact hd2 v hv

/-- Witness for C9 at a concrete pre-call register file. -/
theorem call_flush_clears_registers_witness :
    (1 : Nat) ∈ (spillAndClearAllRegisters
      [RegContents.held 1, RegContents.blockedReg]
      [RegContents.free, RegContents.held 2] []).2 :=
  (call_flush_clears_registers
    [RegContents.held 1, RegContents.blockedReg]
    [RegContents.free, RegContents.held 2] []).2.2 1 (Or.inl (by decide))

/-- C10 (corrected): a flatten result that is already internalized does not
imply the forwarding table is untouched. `String::Flatten` returns the
`first()` of a flat `ConsString` (this fast path is visible in src/ at
string-table.cc:766-768, where a flat cons string's content is taken from its
first part), and that first part can itself be an internalized string distinct
from the input. Then the input is not a thin string, so `LookupString` runs
`SetInternalizedReference` (string-table.cc:502-503), which for a shared
(or flag-forced) non-external string appends a forwarding-table entry
(string-table.cc:436-449). Concretely: a shared, non-internalized, non-thin
input whose flatten result is a distinct internalized string gains exactly one
forwarding entry. -/
theorem lookup_string_internalized_counterexample :
    (⟨⟨2, 7, [1, 2]⟩, true, false, true, false, false, false, 0⟩ :
        LSString).isInternalizedString = true ∧
    lookupString false ⟨[], 0, 0⟩ []
      ⟨⟨1, 7, [1, 2]⟩, false, false, true, false, false, false, 0⟩
      ⟨⟨2, 7, [1, 2]⟩, true, false, true, false, false, false, 0⟩ 5 =
      some (⟨[], 0, 0⟩, [(1, ⟨2, 7, [1, 2]⟩)], ⟨2, 7, [1, 2]⟩) ∧
    ([(1, ⟨2, 7, [1, 2]⟩)] : List (Nat × VStr)) ≠ [] := by
  decide

/-- C10 (amended): for every input string whose flatten result is already an
internalized string, `LookupString` returns that same (flattened) string
object and neither probes nor mutates the string table. The forwarding table
either is unchanged or gains exactly the single pair (input, result) appended
by `SetInternalizedReference`; it is guaranteed unchanged whenever the flatten
result is the input object itself or the input is a thin string. -/
theorem lookup_string_internalized_amended (alwaysUseFwd : Bool) (st : STData)
    (fwd : List (Nat × VStr)) (s r : LSString) (newId : Nat)
    (hint : r.isInternalizedString = true) :
    ∃ fwd2, lookupString alwaysUseFwd st fwd s r newId = some (st, fwd2, r.str) ∧
      (fwd2 = fwd ∨ fwd2 = fwd ++ [(s.str.sid, r.str)]) ∧
      ((s.str.sid = r.str.sid ∨ s.isThinString = true) → fwd2 = fwd) := by
  unfold lookupString
  rw [if_pos hint]
  dsimp only
  by_cases hcond : s.str.sid ≠ r.str.sid ∧ s.isThinString = false
  · rw [if_pos hcond]
    refine ⟨setInternalizedReference alwaysUseFwd fwd s r.str, rfl, ?_, ?_⟩
    · unfold setInternalizedReference
      split_ifs with h1 h2
      · exact Or.inl rfl
      · exact Or.inr rfl
      · exact Or.inl rfl
    · intro hor
      rcases hor with hsid | hthin
      · exact absurd hsid hcond.1
      · rw [hthin] at hcond
        exact absurd hcond.2 (by simp)
  · rw [if_neg hcond]
    exact ⟨fwd, rfl, Or.inl rfl, fun _ => rfl⟩

/-- Witness for C10's amended theorem: a flat, already-internalized input
string is returned unchanged with both tables untouched. -/
theorem lookup_string_internalized_amended_witness :
    ∃ fwd2, lookupString false ⟨[], 0, 0⟩ []
        ⟨⟨1, 7, [1]⟩, true, false, false, false, false, false, 0⟩
        ⟨⟨1, 7, [1]⟩, true, false, false, false, false, false, 0⟩ 5 =
        some (⟨[], 0, 0⟩, fwd2, ⟨1, 7, [1]⟩) ∧
      (fwd2 = [] ∨ fwd2 = [] ++ [((1 : Nat), (⟨1, 7, [1]⟩ : VStr))]) ∧
      (((⟨⟨1, 7, [1]⟩, true, false, false, false, false, false, 0⟩ :
          LSString).str.sid = (1 : Nat) ∨
        (⟨⟨1, 7, [1]⟩, true, false, false, false, false, false, 0⟩ :
          LSString).isThinString = true) → fwd2 = []) :=
  lookup_string_internalized_amended false ⟨[], 0, 0⟩ []
    ⟨⟨1, 7, [1]⟩, true, false, false, false, false, false, 0⟩
    ⟨⟨1, 7, [1]⟩, true, false, false, false, false, false, 0⟩ 5 rfl

lemma firstProbe_lt (hash size : Nat) (h : 0 < size) : firstProbe hash size < size :=
  lt_of_le_of_lt Nat.and_le_right (by omega)

lemma nextProbe_lt (last number size : Nat) (h : 0 < size) :
    nextProbe last number size < size :=
  lt_of_le_of_lt Nat.and_le_right (by omega)

lemma getD_set_self {α : Type} (l : List α) (i : Nat) (x d : α) (h : i < l.length) :
    (l.set i x).getD i d = x := by
  simp [List.getD_eq_getElem?_getD, List.getElem?_set_self, h]

lemma getD_set_ne {α : Type} (l : List α) (i j : Nat) (x d : α) (h : i ≠ j) :
    (l.set i x).getD j d = l.getD j d := by
  simp [List.getD_eq_getElem?_getD, List.getElem?_set_ne h]

lemma findEntryOrInsertionEntryAux_some_ins (t : List Slot) (k : Key) :
    ∀ (fuel : Nat) (d entry count p : Nat),
      findEntryOrInsertionEntryAux t k fuel (some d) entry count =
        some (FindResult.insertAt p) →
      p = d := by
  intro fuel
  induction fuel with
  | zero => intro d entry count p h; cases h
  | succ fuel ih =>
    intro d entry count p h
    cases hslot : t.getD entry Slot.empty with
    | empty =>
      simp only [findEntryOrInsertionEntryAux, hslot, Option.getD_some,
        Option.some.injEq, FindResult.insertAt.injEq] at h
      exact h.symm
    | deleted =>
      simp only [findEntryOrInsertionEntryAux, hslot, Option.getD_some] at h
      exact ih d _ _ p h
    | str s0 =>
      simp only [findEntryOrInsertionEntryAux, hslot] at h
      split_ifs at h with hm
      · simp at h
      · exact ih d _ _ p h

lemma findEntryOrInsertionEntryAux_insertAt_lt (t : List Slot) (k : Key)
    (hlen : 0 < t.length) :
    ∀ (fuel : Nat) (ins : Option Nat) (entry count p : Nat),
      entry < t.length →
      (∀ d, ins = some d → d < t.length) →
      findEntryOrInsertionEntryAux t k fuel ins entry count =
        some (FindResult.insertAt p) →
      p < t.length := by
  intro fuel
  induction fuel with
  | zero => intro ins entry count p _ _ h; cases h
  | succ fuel ih =>
    intro ins entry count p hentry hins h
    cases hslot : t.getD entry Slot.empty with
    | empty =>
      simp only [findEntryOrInsertionEntryAux, hslot, Option.some.injEq,
        FindResult.insertAt.injEq] at h
      subst h
      cases ins with
      | none => exact hentry
      | some d => exact hins d rfl
    | deleted =>
      simp only [findEntryOrInsertionEntryAux, hslot] at h
      refine ih (some (ins.getD entry)) _ _ p (nextProbe_lt _ _ _ hlen) ?_ h
      intro d hd
      injection hd with hd
      subst hd
      cases ins with
      | none => exact hentry
      | some d2 => exact hins d2 rfl
    | str s0 =>
      simp only [findEntryOrInsertionEntryAux, hslot] at h
      split_ifs at h with hm
      · simp at h
      · exact ih ins _ _ p (nextProbe_lt _ _ _ hlen) hins h

lemma findEntryOrInsertionEntryAux_insertAt_free (t : List Slot) (k : Key) :
    ∀ (fuel : Nat) (ins : Option Nat) (entry count p : Nat),
      (∀ d, ins = some d → t.getD d Slot.empty = Slot.deleted) →
      findEntryOrInsertionEntryAux t k fuel ins entry count =
        some (FindResult.insertAt p) →
      t.getD p Slot.empty = Slot.empty ∨ t.getD p Slot.empty = Slot.deleted := by
  intro fuel
  induction fuel with
  | zero => intro ins entry count p _ h; cases h
  | succ fuel ih =>
    intro ins entry count p hins h
    cases hslot : t.getD entry Slot.empty with
    | empty =>
      simp only [findEntryOrInsertionEntryAux, hslot, Option.some.injEq,
        FindResult.insertAt.injEq] at h
      subst h
      cases ins with
      | none => exact Or.inl hslot
      | some d => exact Or.inr (hins d rfl)
    | deleted =>
      simp only [findEntryOrInsertionEntryAux, hslot] at h
      refine ih (some (ins.getD entry)) _ _ p ?_ h
      intro d hd
      injection hd with hd
      subst hd
      cases ins with
      | none => exact hslot
      | some d2 => exact hins d2 rfl
    | str s0 =>
      simp only [findEntryOrInsertionEntryAux, hslot] at h
      split_ifs at h with hm
      · simp at h
      · exact ih ins _ _ p hins h

lemma findEntryOrInsertionEntryAux_found (t : List Slot) (k : Key) :
    ∀ (fuel : Nat) (ins : Option Nat) (entry count e : Nat),
      findEntryOrInsertionEntryAux t k fuel ins entry count =
        some (FindResult.found e) →
      findEntryAux t k fuel entry count = some (some e) ∧
      ∃ s1, t.getD e Slot.empty = Slot.str s1 ∧ keyIsMatch k s1 = true := by
  intro fuel
  induction fuel with
  | zero => intro ins entry count e h; cases h
  | succ fuel ih =>
    intro ins entry count e h
    cases hslot : t.getD entry Slot.empty with
    | empty =>
      simp only [findEntryOrInsertionEntryAux, hslot] at h
      simp at h
    | deleted =>
      simp only [findEntryOrInsertionEntryAux, hslot] at h
      obtain ⟨hfind, hwit⟩ := ih _ _ _ e h
      exact ⟨by simp only [findEntryAux, hslot]; exact hfind, hwit⟩
    | str s0 =>
      simp only [findEntryOrInsertionEntryAux, hslot] at h
      split_ifs at h with hm
      · simp only [Option.some.injEq, FindResult.found.injEq] at h
        subst h
        refine ⟨?_, s0, hslot, hm⟩
        simp only [findEntryAux, hslot]
        rw [if_pos hm]
      · obtain ⟨hfind, hwit⟩ := ih _ _ _ e h
        refine ⟨?_, hwit⟩
        simp only [findEntryAux, hslot]
        rw [if_neg hm]
        exact hfind

lemma findEntryOrInsertionEntryAux_insert_then_find (t : List Slot) (k : Key)
    (s : VStr) (hmatch : keyIsMatch k s = true) (hlen : 0 < t.length) :
    ∀ (fuel : Nat) (entry count p : Nat),
      entry < t.length →
      findEntryOrInsertionEntryAux t k fuel none entry count =
        some (FindResult.insertAt p) →
      findEntryAux (t.set p (Slot.str s)) k fuel entry count = some (some p) := by
  intro fuel
  induction fuel with
  | zero => intro entry count p _ h; cases h
  | succ fuel ih =>
    intro entry count p hentry h
    have hfree : t.getD p Slot.empty = Slot.empty ∨ t.getD p Slot.empty = Slot.deleted :=
      findEntryOrInsertionEntryAux_insertAt_free t k (fuel + 1) none entry count p
        (by intro d hd; cases hd) h
    cases hslot : t.getD entry Slot.empty with
    | empty =>
      simp only [findEntryOrInsertionEntryAux, hslot, Option.some.injEq,
        FindResult.insertAt.injEq, Option.getD_none] at h
      subst h
      simp only [findEntryAux, getD_set_self t entry (Slot.str s) Slot.empty hentry]
      rw [if_pos hmatch]
    | deleted =>
      simp only [findEntryOrInsertionEntryAux, hslot, Option.getD_none] at h
      have hp : p = entry := findEntryOrInsertionEntryAux_some_ins t k fuel entry _ _ p h
      subst hp
      simp only [findEntryAux, getD_set_self t p (Slot.str s) Slot.empty hentry]
      rw [if_pos hmatch]
    | str s0 =>
      simp only [findEntryOrInsertionEntryAux, hslot] at h
      split_ifs at h with hm
      · simp at h
      · have hne : p ≠ entry := by
          intro heq
          subst heq
          rcases hfree with hf | hf <;> rw [hf] at hslot <;> cases hslot
        have hslot2 : (t.set p (Slot.str s)).getD entry Slot.empty = Slot.str s0 := by
          rw [getD_set_ne t p entry (Slot.str s) Slot.empty hne, hslot]
        simp only [findEntryAux, hslot2]
        rw [if_neg hm]
        rw [List.length_set]
        exact ih _ _ p (nextProbe_lt _ _ _ hlen) h

lemma resizeFill_length :
    ∀ (old acc : List Slot) (fuel : Nat) (res : List Slot),
      resizeFill old acc fuel = some res → res.length = acc.length := by
  intro old
  induction old with
  | nil =>
    intro acc fuel res h
    injection h with h
    subst h
    rfl
  | cons hd tl ih =>
    intro acc fuel res h
    cases hd with
    | str s =>
      simp only [resizeFill] at h
      cases hri : resizeInsert acc s fuel with
      | none => rw [hri] at h; cases h
      | some acc2 =>
        rw [hri] at h
        have h2 := ih acc2 fuel res h
        simp only [resizeInsert] at hri
        cases hfi : findInsertionEntry acc s.hash fuel with
        | none => rw [hfi] at hri; cases hri
        | some p =>
          rw [hfi] at hri
          injection hri with hri
          subst hri
          rw [h2, List.length_set]
    | empty =>
      simp only [resizeFill] at h
      exact ih acc fuel res h
    | deleted =>
      simp only [resizeFill] at h
      exact ih acc fuel res h

lemma resize_some_length (d : STData) (c : Nat) (d2 : STData)
    (h : resize d c = some d2) : d2.slots.length = c := by
  simp only [resize] at h
  cases hrf : resizeFill d.slots (List.replicate c Slot.empty) c with
  | none => rw [hrf] at h; cases h
  | some ns =>
    rw [hrf] at h
    injection h with h
    subst h
    dsimp only
    rw [resizeFill_length _ _ _ _ hrf, List.length_replicate]

lemma ensureCapacity_pos (st st1 : STData) (h : ensureCapacity st = some st1)
    (hpos : 0 < st.slots.length) : 0 < st1.slots.length := by
  have hmin1 := minCapacity_le_computeStringTableCapacity (st.numberOfElements + 1)
  unfold kStringTableMinCapacity at hmin1
  simp only [ensureCapacity] at h
  split_ifs at h with h1 h2
  · have hlen := resize_some_length st _ st1 h
    rw [computeStringTableCapacityWithShrink_eq] at hlen h1
    split_ifs at hlen h1 with h3
    · exact absurd h1 (lt_irrefl _)
    · omega
  · injection h with h
    subst h
    exact hpos
  · have hlen := resize_some_length st _ st1 h
    omega

lemma findEntryOrInsertionEntry_found (t : List Slot) (k : Key) (fuel e : Nat)
    (h : findEntryOrInsertionEntry t k fuel = some (FindResult.found e)) :
    findEntry t k fuel = some (some e) ∧
    ∃ s1, t.getD e Slot.empty = Slot.str s1 ∧ keyIsMatch k s1 = true :=
  findEntryOrInsertionEntryAux_found t k fuel none _ _ e h

lemma findEntryOrInsertionEntry_insertAt_lt (t : List Slot) (k : Key) (p : Nat)
    (hlen : 0 < t.length)
    (h : findEntryOrInsertionEntry t k t.length = some (FindResult.insertAt p)) :
    p < t.length :=
  findEntryOrInsertionEntryAux_insertAt_lt t k hlen t.length none _ _ p
    (firstProbe_lt _ _ hlen) (by intro d hd; cases hd) h

lemma findEntryOrInsertionEntry_insert_then_find (t : List Slot) (k : Key)
    (s : VStr) (hmatch : keyIsMatch k s = true) (hlen : 0 < t.length) (p : Nat)
    (h : findEntryOrInsertionEntry t k t.length = some (FindResult.insertAt p)) :
    findEntry (t.set p (Slot.str s)) k t.length = some (some p) := by
  have hsim := findEntryOrInsertionEntryAux_insert_then_find t k s hmatch hlen
    t.length _ 1 p (firstProbe_lt _ _ hlen) h
  unfold findEntry
  rw [List.length_set]
  exact hsim

/-- C1: two sequential `LookupKey` calls with keys of equal character content
and equal hash return the same, pointer-identical interned string, and the
second call finds the first call's entry without inserting again or changing
the table at all. -/
theorem lookup_key_idempotent (st st1 st2 : STData) (k k2 : Key)
    (newId1 newId2 : Nat) (s1 s2 : VStr)
    (hhash : k2.hash = k.hash) (hcontent : k2.content = k.content)
    (hpos : 0 < st.slots.length)
    (h1 : lookupKey st k newId1 = some (st1, s1))
    (h2 : lookupKey st1 k2 newId2 = some (st2, s2)) :
    s2 = s1 ∧ st2 = st1 := by
  obtain rfl : k = k2 := by
    obtain ⟨k2h, k2c⟩ := k2
    obtain ⟨kh, kc⟩ := k
    dsimp only at hhash hcontent
    rw [hhash, hcontent]
  simp only [lookupKey] at h1
  cases hfe : findEntry st.slots k st.slots.length with
  | none => rw [hfe] at h1; cases h1
  | some oe =>
    cases oe with
    | some e =>
      simp only [hfe] at h1
      cases hslot : st.slots.getD e Slot.empty with
      | empty => simp only [hslot] at h1; exact Option.noConfusion h1
      | deleted => simp only [hslot] at h1; exact Option.noConfusion h1
      | str s =>
        simp only [hslot, Option.some.injEq, Prod.mk.injEq] at h1
        obtain ⟨rfl, rfl⟩ := h1
        simp only [lookupKey, hfe, hslot, Option.some.injEq, Prod.mk.injEq] at h2
        exact ⟨h2.2.symm, h2.1.symm⟩
    | none =>
      simp only [hfe] at h1
      cases hec : ensureCapacity st with
      | none => rw [hec] at h1; cases h1
      | some stE =>
        have hposE : 0 < stE.slots.length := ensureCapacity_pos st stE hec hpos
        simp only [hec] at h1
        cases hfoi : findEntryOrInsertionEntry stE.slots k stE.slots.length with
        | none => rw [hfoi] at h1; cases h1
        | some fr =>
          cases fr with
          | found e =>
            simp only [hfoi] at h1
            cases hslot : stE.slots.getD e Slot.empty with
            | empty => simp only [hslot] at h1; exact Option.noConfusion h1
            | deleted => simp only [hslot] at h1; exact Option.noConfusion h1
            | str sE =>
              simp only [hslot, Option.some.injEq, Prod.mk.injEq] at h1
              obtain ⟨rfl, rfl⟩ := h1
              obtain ⟨hfa, -⟩ := findEntryOrInsertionEntry_found _ _ _ _ hfoi
              simp only [lookupKey, hfa, hslot, Option.some.injEq,
                Prod.mk.injEq] at h2
              exact ⟨h2.2.symm, h2.1.symm⟩
          | insertAt p =>
            simp only [hfoi] at h1
            have hplt : p < stE.slots.length :=
              findEntryOrInsertionEntry_insertAt_lt _ _ _ hposE hfoi
            have hmatch : keyIsMatch k ⟨newId1, k.hash, k.content⟩ = true := by
              simp [keyIsMatch]
            have hsim := findEntryOrInsertionEntry_insert_then_find stE.slots k
              ⟨newId1, k.hash, k.content⟩ hmatch hposE p hfoi
            cases hslot : stE.slots.getD p Slot.empty with
            | str s0 => simp only [hslot] at h1; exact Option.noConfusion h1
            | empty =>
              simp only [hslot, Option.some.injEq, Prod.mk.injEq] at h1
              obtain ⟨rfl, rfl⟩ := h1
              simp only [lookupKey] at h2
              rw [List.length_set] at h2
              simp only [hsim, getD_set_self stE.slots p _ Slot.empty hplt,
                Option.some.injEq, Prod.mk.injEq] at h2
              exact ⟨h2.2.symm, h2.1.symm⟩
            | deleted =>
              simp only [hslot, Option.some.injEq, Prod.mk.injEq] at h1
              obtain ⟨rfl, rfl⟩ := h1
              simp only [lookupKey] at h2
              rw [List.length_set] at h2
              simp only [hsim, getD_set_self stE.slots p _ Slot.empty hplt,
                Option.some.injEq, Prod.mk.injEq] at h2
              exact ⟨h2.2.symm, h2.1.symm⟩

/-- Witness for C1: interning key (hash 5, content [1,2]) twice in a small
empty table inserts once and then returns the identical string object. -/
theorem lookup_key_idempotent_witness :
    (⟨100, 5, [1, 2]⟩ : VStr) = ⟨100, 5, [1, 2]⟩ ∧
    (⟨(List.replicate 8 Slot.empty).set 5 (Slot.str ⟨100, 5, [1, 2]⟩), 1, 0⟩ : STData) =
      ⟨(List.replicate 8 Slot.empty).set 5 (Slot.str ⟨100, 5, [1, 2]⟩), 1, 0⟩ :=
  lookup_key_idempotent ⟨List.replicate 8 Slot.empty, 0, 0⟩
    ⟨(List.replicate 8 Slot.empty).set 5 (Slot.str ⟨100, 5, [1, 2]⟩), 1, 0⟩
    ⟨(List.replicate 8 Slot.empty).set 5 (Slot.str ⟨100, 5, [1, 2]⟩), 1, 0⟩
    ⟨5, [1, 2]⟩ ⟨5, [1, 2]⟩ 100 101 ⟨100, 5, [1, 2]⟩ ⟨100, 5, [1, 2]⟩
    rfl rfl (by decide) (by decide) (by decide)

lemma two_mul_triangle (n : Nat) : 2 * triangle n = n * (n + 1) := by
  induction n with
  | zero => rfl
  | succ n ih =>
    rw [triangle, Nat.mul_add, ih]
    ring

lemma triangle_mono {a b : Nat} (h : a ≤ b) : triangle a ≤ triangle b := by
  induction b with
  | zero =>
    obtain rfl : a = 0 := by omega
    exact le_rfl
  | succ b ih =>
    rcases Nat.eq_or_lt_of_le h with rfl | hlt
    · exact le_rfl
    · exact le_trans (ih (by omega)) (by rw [triangle]; omega)

lemma triangle_mod_inj_aux (k a b : Nat) (hab : a ≤ b) (hb : b < 2 ^ k)
    (h : triangle a % 2 ^ k = triangle b % 2 ^ k) : a = b := by
  obtain ⟨u, rfl⟩ : ∃ u, b = a + u := ⟨b - a, by omega⟩
  have hdvd : 2 ^ k ∣ triangle (a + u) - triangle a :=
    (Nat.modEq_iff_dvd' (triangle_mono hab)).mp h
  have h2m : 2 * (triangle (a + u) - triangle a) = u * (a + (a + u) + 1) := by
    have e1 := two_mul_triangle (a + u)
    have e2 := two_mul_triangle a
    have e3 : (a + u) * (a + u + 1) = a * (a + 1) + u * (a + (a + u) + 1) := by ring
    have e4 := triangle_mono hab
    omega
  have hdvd2 : 2 ^ (k + 1) ∣ u * (a + (a + u) + 1) := by
    rw [← h2m, pow_succ, Nat.mul_comm (2 ^ k) 2]
    exact Nat.mul_dvd_mul_left 2 hdvd
  rcases Nat.even_or_odd u with hu | hu
  · have hv : Odd (a + (a + u) + 1) := by
      rcases hu with ⟨m, rfl⟩
      exact ⟨a + m, by ring⟩
    have hco : Nat.Coprime (2 ^ (k + 1)) (a + (a + u) + 1) :=
      Nat.Coprime.pow_left (k + 1) (Nat.coprime_two_left.mpr hv)
    have hdu : 2 ^ (k + 1) ∣ u := Nat.Coprime.dvd_of_dvd_mul_right hco hdvd2
    have hu0 : u = 0 := Nat.eq_zero_of_dvd_of_lt hdu (by
      have : (2 : Nat) ^ k ≤ 2 ^ (k + 1) := Nat.pow_le_pow_right (by norm_num) (by omega)
      omega) |>.symm ▸ rfl
    omega
  · have hco : Nat.Coprime (2 ^ (k + 1)) u :=
      Nat.Coprime.pow_left (k + 1) (Nat.coprime_two_left.mpr hu)
    have hdv : 2 ^ (k + 1) ∣ a + (a + u) + 1 := by
      rw [Nat.mul_comm] at hdvd2
      exact Nat.Coprime.dvd_of_dvd_mul_right hco hdvd2
    have hle : 2 ^ (k + 1) ≤ a + (a + u) + 1 := Nat.le_of_dvd (by omega) hdv
    have hpow : 2 ^ (k + 1) = 2 * 2 ^ k := by rw [pow_succ]; ring
    omega

lemma probeSeq_lt (h c k : Nat) (hc : c = 2 ^ k) (a : Nat) : probeSeq h c a < c := by
  rw [probeSeq_pow2 h c k hc a, hc]
  exact Nat.mod_lt _ (Nat.pos_pow_of_pos k (by norm_num))

lemma probeSeq_injective (h c k : Nat) (hc : c = 2 ^ k) (a b : Nat)
    (ha : a < c) (hb : b < c) (heq : probeSeq h c a = probeSeq h c b) : a = b := by
  rw [probeSeq_pow2 h c k hc a, probeSeq_pow2 h c k hc b] at heq
  have hmod : triangle a % c = triangle b % c := by
    have : (h + triangle a) % c = (h + triangle b) % c := heq
    exact Nat.ModEq.add_left_cancel' h this
  subst hc
  rcases le_total a b with hab | hab
  · exact triangle_mod_inj_aux k a b hab hb hmod
  · exact (triangle_mod_inj_aux k b a hab ha hmod.symm).symm

lemma probeSeq_surjective (h c k : Nat) (hc : c = 2 ^ k) (p : Nat) (hp : p < c) :
    ∃ a, a < c ∧ probeSeq h c a = p := by
  have hc0 : 0 < c := by rw [hc]; exact Nat.pos_pow_of_pos k (by norm_num)
  let f : Fin c → Fin c := fun a => ⟨probeSeq h c a.val, probeSeq_lt h c k hc a.val⟩
  have hinj : Function.Injective f := by
    intro a b hab
    have := congrArg Fin.val hab
    exact Fin.ext (probeSeq_injective h c k hc a.val b.val a.isLt b.isLt this)
  have hsurj : Function.Surjective f := Finite.surjective_of_injective hinj
  obtain ⟨a, ha⟩ := hsurj ⟨p, hp⟩
  exact ⟨a.val, a.isLt, congrArg Fin.val ha⟩

lemma getD_mem {α : Type} (l : List α) (n : Nat) (d : α) (h : n < l.length) :
    l.getD n d ∈ l := by
  rw [getD_eq_get l d n h]
  exact List.get_mem l _ _

lemma exists_empty_slot (t : List Slot) (hnd : Slot.deleted ∉ t)
    (hcount : t.countP isStrSlot < t.length) :
    ∃ p, p < t.length ∧ t.getD p Slot.empty = Slot.empty := by
  by_cases hall : ∀ x ∈ t, isStrSlot x = true
  · rw [List.countP_eq_length.mpr hall] at hcount
    omega
  · push_neg at hall
    obtain ⟨x, hx, hxs⟩ := hall
    obtain ⟨⟨i, hi⟩, hget⟩ := List.mem_iff_get.mp hx
    refine ⟨i, hi, ?_⟩
    rw [getD_eq_get t Slot.empty i hi, hget]
    cases x with
    | empty => rfl
    | deleted => exact absurd hx hnd
    | str s => simp [isStrSlot] at hxs

lemma liveStrings_length_eq_countP (t : List Slot) :
    (liveStrings t).length = t.countP isStrSlot := by
  induction t with
  | nil => rfl
  | cons hd tl ih =>
    cases hd with
    | empty => simpa [liveStrings, List.countP_cons, isStrSlot] using ih
    | deleted => simpa [liveStrings, List.countP_cons, isStrSlot] using ih
    | str s => simpa [liveStrings, List.countP_cons, isStrSlot] using ih

lemma liveStrings_replicate_empty (n : Nat) :
    liveStrings (List.replicate n Slot.empty) = [] := by
  induction n with
  | zero => rfl
  | succ n ih => simp [liveStrings, List.replicate_succ] at ih ⊢

lemma mem_of_mem_set {α : Type} (l : List α) (p : Nat) (x y : α)
    (h : y ∈ l.set p x) : y = x ∨ y ∈ l := by
  induction l generalizing p with
  | nil => cases h
  | cons hd tl ih =>
    cases p with
    | zero =>
      rcases List.mem_cons.mp h with rfl | h2
      · exact Or.inl rfl
      · exact Or.inr (List.mem_cons_of_mem _ h2)
    | succ j =>
      rcases List.mem_cons.mp h with rfl | h2
      · exact Or.inr (List.mem_cons_self _ _)
      · rcases ih j h2 with h3 | h3
        · exact Or.inl h3
        · exact Or.inr (List.mem_cons_of_mem _ h3)

lemma liveStrings_set_empty (l : List Slot) (p : Nat) (s : VStr)
    (hp : p < l.length) (he : l.getD p Slot.empty = Slot.empty) :
    List.Perm (liveStrings (l.set p (Slot.str s))) (s :: liveStrings l) := by
  induction l generalizing p with
  | nil => cases hp
  | cons hd tl ih =>
    cases p with
    | zero =>
      simp only [List.getD_cons_zero] at he
      subst he
      simp only [List.set_cons_zero, liveStrings, List.filterMap_cons]
      exact List.Perm.refl _
    | succ j =>
      simp only [List.getD_cons_succ] at he
      have hperm := ih j (by simpa using hp) he
      cases hd with
      | empty =>
        simpa [liveStrings, List.set_cons_succ, List.filterMap_cons] using hperm
      | deleted =>
        simpa [liveStrings, List.set_cons_succ, List.filterMap_cons] using hperm
      | str s0 =>
        simp only [liveStrings, List.set_cons_succ, List.filterMap_cons]
        exact List.Perm.trans (List.Perm.cons s0 hperm) (List.Perm.swap s s0 _)

lemma findInsertionEntryAux_spec (t : List Slot) (_hlen : 0 < t.length) (hash : Nat) :
    ∀ (fuel j : Nat),
      (∃ a, j ≤ a ∧ a < j + fuel ∧
        isFreeSlot (t.getD (probeSeq hash t.length a) Slot.empty) = true) →
      ∃ a, j ≤ a ∧ a < j + fuel ∧
        findInsertionEntryAux t fuel (probeSeq hash t.length j) (j + 1) =
          some (probeSeq hash t.length a) ∧
        isFreeSlot (t.getD (probeSeq hash t.length a) Slot.empty) = true ∧
        ∀ m, j ≤ m → m < a →
          ∃ s0, t.getD (probeSeq hash t.length m) Slot.empty = Slot.str s0 := by
  intro fuel
  induction fuel with
  | zero =>
    intro j h
    obtain ⟨a, h1, h2, _⟩ := h
    omega
  | succ fuel ih =>
    intro j h
    cases hslot : t.getD (probeSeq hash t.length j) Slot.empty with
    | empty =>
      refine ⟨j, le_rfl, by omega, ?_, by rw [hslot]; rfl, fun m h1 h2 => by omega⟩
      simp only [findInsertionEntryAux, hslot]
    | deleted =>
      refine ⟨j, le_rfl, by omega, ?_, by rw [hslot]; rfl, fun m h1 h2 => by omega⟩
      simp only [findInsertionEntryAux, hslot]
    | str s0 =>
      obtain ⟨a, ha1, ha2, ha3⟩ := h
      have haj : a ≠ j := by
        intro heq
        subst heq
        rw [hslot] at ha3
        simp [isFreeSlot] at ha3
      obtain ⟨a2, hb1, hb2, hb3, hb4, hb5⟩ := ih (j + 1) ⟨a, by omega, by omega, ha3⟩
      refine ⟨a2, by omega, by omega, ?_, hb4, fun m h1 h2 => ?_⟩
      · simp only [findInsertionEntryAux, hslot]
        exact hb3
      · rcases Nat.eq_or_lt_of_le h1 with rfl | hlt
        · exact ⟨s0, hslot⟩
        · exact hb5 m (by omega) h2

lemma findEntryAux_reaches (t : List Slot) (_hlen : 0 < t.length) (k : Key) :
    ∀ (fuel j a : Nat),
      j ≤ a → a < j + fuel →
      (∀ m, j ≤ m → m < a →
        t.getD (probeSeq k.hash t.length m) Slot.empty ≠ Slot.empty) →
      (∃ s1, t.getD (probeSeq k.hash t.length a) Slot.empty = Slot.str s1 ∧
        keyIsMatch k s1 = true) →
      ∃ e s2, findEntryAux t k fuel (probeSeq k.hash t.length j) (j + 1) =
          some (some e) ∧
        t.getD e Slot.empty = Slot.str s2 ∧ keyIsMatch k s2 = true := by
  intro fuel
  induction fuel with
  | zero => intro j a h1 h2 _ _; omega
  | succ fuel ih =>
    intro j a h1 h2 hpre hmatch
    rcases Nat.eq_or_lt_of_le h1 with rfl | hlt
    · obtain ⟨s1, hs1, hm1⟩ := hmatch
      refine ⟨probeSeq k.hash t.length j, s1, ?_, hs1, hm1⟩
      simp only [findEntryAux, hs1]
      rw [if_pos hm1]
    · cases hslot : t.getD (probeSeq k.hash t.length j) Slot.empty with
      | empty => exact absurd hslot (hpre j le_rfl hlt)
      | deleted =>
        obtain ⟨e, s2, he, hs2, hm2⟩ := ih (j + 1) a (by omega) (by omega)
          (fun m hm1 hm2 => hpre m (by omega) hm2) hmatch
        refine ⟨e, s2, ?_, hs2, hm2⟩
        simp only [findEntryAux, hslot]
        exact he
      | str s0 =>
        by_cases hm0 : keyIsMatch k s0 = true
        · refine ⟨probeSeq k.hash t.length j, s0, ?_, hslot, hm0⟩
          simp only [findEntryAux, hslot]
          rw [if_pos hm0]
        · obtain ⟨e, s2, he, hs2, hm2⟩ := ih (j + 1) a (by omega) (by omega)
            (fun m hm1 hm2 => hpre m (by omega) hm2) hmatch
          refine ⟨e, s2, ?_, hs2, hm2⟩
          simp only [findEntryAux, hslot]
          rw [if_neg hm0]
          exact he

lemma resizeInsert_spec (acc : List Slot) (s : VStr) (c k : Nat)
    (hck : c = 2 ^ k) (hlen : acc.length = c)
    (hnd : Slot.deleted ∉ acc) (hcount : acc.countP isStrSlot < c) :
    ∃ p a, resizeInsert acc s c = some (acc.set p (Slot.str s)) ∧
      p < c ∧ acc.getD p Slot.empty = Slot.empty ∧
      a < c ∧ p = probeSeq s.hash c a ∧
      ∀ m, m < a → ∃ s0, acc.getD (probeSeq s.hash c m) Slot.empty = Slot.str s0 := by
  have hc0 : 0 < c := by
    rw [hck]
    exact Nat.pos_pow_of_pos k (by norm_num)
  obtain ⟨p0, hp0, hp0e⟩ := exists_empty_slot acc hnd (by omega)
  obtain ⟨a0, ha0, ha0e⟩ := probeSeq_surjective s.hash c k hck p0 (by omega)
  have hfree : ∃ a, 0 ≤ a ∧ a < 0 + c ∧
      isFreeSlot (acc.getD (probeSeq s.hash acc.length a) Slot.empty) = true := by
    refine ⟨a0, by omega, by omega, ?_⟩
    rw [hlen, ha0e, hp0e]
    rfl
  obtain ⟨a, -, ha2, ha3, ha4, ha5⟩ :=
    findInsertionEntryAux_spec acc (by omega) s.hash c 0 hfree
  have hplt : probeSeq s.hash acc.length a < c := by
    rw [hlen]
    exact probeSeq_lt s.hash c k hck a
  have hpe : acc.getD (probeSeq s.hash acc.length a) Slot.empty = Slot.empty := by
    cases hsl : acc.getD (probeSeq s.hash acc.length a) Slot.empty with
    | empty => rfl
    | deleted =>
      exact absurd (hsl ▸ getD_mem acc _ Slot.empty (by omega)) hnd
    | str s0 =>
      rw [hsl] at ha4
      simp [isFreeSlot] at ha4
  refine ⟨probeSeq s.hash acc.length a, a, ?_, hplt, hpe, by omega, by rw [hlen],
    fun m hm => ?_⟩
  · have ha3b : findInsertionEntryAux acc c (firstProbe s.hash acc.length) 1 =
        some (probeSeq s.hash acc.length a) := ha3
    simp only [resizeInsert, findInsertionEntry]
    rw [ha3b]
  · rw [← hlen]
    exact ha5 m (by omega) hm

lemma findableAt_set (t : List Slot) (kk : Key) (a p : Nat) (s : VStr)
    (hp : t.getD p Slot.empty = Slot.empty)
    (hf : findableAt t kk a) : findableAt (t.set p (Slot.str s)) kk a := by
  obtain ⟨⟨s1, hs1, hm1⟩, hpre⟩ := hf
  constructor
  · refine ⟨s1, ?_, hm1⟩
    rw [List.length_set]
    have hne : p ≠ probeSeq kk.hash t.length a := by
      intro heq
      rw [← heq, hp] at hs1
      cases hs1
    rw [getD_set_ne t p _ _ _ hne, hs1]
  · intro m hm
    obtain ⟨s0, hs0⟩ := hpre m hm
    refine ⟨s0, ?_⟩
    rw [List.length_set]
    have hne : p ≠ probeSeq kk.hash t.length m := by
      intro heq
      rw [← heq, hp] at hs0
      cases hs0
    rw [getD_set_ne t p _ _ _ hne, hs0]

lemma findableAt_inserted (acc : List Slot) (s : VStr) (p a c : Nat)
    (hlen : acc.length = c) (hp : p < c)
    (hpe : acc.getD p Slot.empty = Slot.empty)
    (hpa : p = probeSeq s.hash c a)
    (hpre : ∀ m, m < a → ∃ s0,
      acc.getD (probeSeq s.hash c m) Slot.empty = Slot.str s0) :
    findableAt (acc.set p (Slot.str s)) (keyOf s) a := by
  constructor
  · refine ⟨s, ?_, by simp [keyIsMatch, keyOf]⟩
    show (acc.set p (Slot.str s)).getD
      (probeSeq (keyOf s).hash (acc.set p (Slot.str s)).length a) Slot.empty =
      Slot.str s
    rw [List.length_set, hlen]
    dsimp only [keyOf]
    rw [← hpa, getD_set_self acc p _ _ (by omega)]
  · intro m hm
    obtain ⟨s0, hs0⟩ := hpre m hm
    refine ⟨s0, ?_⟩
    show (acc.set p (Slot.str s)).getD
      (probeSeq (keyOf s).hash (acc.set p (Slot.str s)).length m) Slot.empty =
      Slot.str s0
    rw [List.length_set, hlen]
    dsimp only [keyOf]
    have hne : p ≠ probeSeq s.hash c m := by
      intro heq
      rw [← heq, hpe] at hs0
      cases hs0
    rw [getD_set_ne acc p _ _ _ hne, hs0]

lemma resizeFill_spec (c k : Nat) (hck : c = 2 ^ k) :
    ∀ (old acc : List Slot),
      acc.length = c →
      Slot.deleted ∉ acc →
      acc.countP isStrSlot + (liveStrings old).length ≤ c →
      ∃ res, resizeFill old acc c = some res ∧
        res.length = c ∧
        Slot.deleted ∉ res ∧
        res.countP isStrSlot = acc.countP isStrSlot + (liveStrings old).length ∧
        List.Perm (liveStrings res) (liveStrings old ++ liveStrings acc) ∧
        (∀ kk a, findableAt acc kk a → findableAt res kk a) ∧
        (∀ s ∈ liveStrings old, ∃ a, a < c ∧ findableAt res (keyOf s) a) := by
  intro old
  induction old with
  | nil =>
    intro acc hlen hnd hcount
    refine ⟨acc, rfl, hlen, hnd, by simp [liveStrings], by simp [liveStrings],
      fun kk a hf => hf, fun s hs => absurd hs (by simp [liveStrings])⟩
  | cons hd tl ih =>
    intro acc hlen hnd hcount
    cases hd with
    | empty =>
      have hlive : liveStrings (Slot.empty :: tl) = liveStrings tl := by
        simp [liveStrings]
      rw [hlive] at hcount ⊢
      obtain ⟨res, h1, h2, h3, h4, h5, h6, h7⟩ := ih acc hlen hnd hcount
      exact ⟨res, h1, h2, h3, h4, h5, h6, h7⟩
    | deleted =>
      have hlive : liveStrings (Slot.deleted :: tl) = liveStrings tl := by
        simp [liveStrings]
      rw [hlive] at hcount ⊢
      obtain ⟨res, h1, h2, h3, h4, h5, h6, h7⟩ := ih acc hlen hnd hcount
      exact ⟨res, h1, h2, h3, h4, h5, h6, h7⟩
    | str s =>
      have hlive : liveStrings (Slot.str s :: tl) = s :: liveStrings tl := by
        simp [liveStrings]
      rw [hlive] at hcount ⊢
      obtain ⟨p, a, hri, hp, hpe, hac, hpa, hpre⟩ :=
        resizeInsert_spec acc s c k hck hlen hnd (by simp at hcount; omega)
      have hplen : p < acc.length := by omega
      have hlen2 : (acc.set p (Slot.str s)).length = c := by
        rw [List.length_set, hlen]
      have hnd2 : Slot.deleted ∉ acc.set p (Slot.str s) := by
        intro hmem
        rcases mem_of_mem_set acc p _ _ hmem with heq | hmem2
        · cases heq
        · exact hnd hmem2
      have hperm2 : List.Perm (liveStrings (acc.set p (Slot.str s)))
          (s :: liveStrings acc) := liveStrings_set_empty acc p s hplen hpe
      have hcount2 : (acc.set p (Slot.str s)).countP isStrSlot =
          acc.countP isStrSlot + 1 := by
        have hl := hperm2.length_eq
        rw [liveStrings_length_eq_countP] at hl
        simp only [List.length_cons, liveStrings_length_eq_countP] at hl
        omega
      obtain ⟨res, h1, h2, h3, h4, h5, h6, h7⟩ := ih (acc.set p (Slot.str s)) hlen2
        hnd2 (by simp at hcount ⊢; omega)
      refine ⟨res, ?_, h2, h3, ?_, ?_, ?_, ?_⟩
      · simp only [resizeFill, hri]
        exact h1
      · rw [h4, hcount2]
        simp
        omega
      · refine List.Perm.trans h5 ?_
        refine List.Perm.trans (List.Perm.append_left (liveStrings tl) hperm2) ?_
        exact List.perm_middle
      · intro kk a2 hf
        exact h6 kk a2 (findableAt_set acc kk a2 p s hpe hf)
      · intro s2 hs2
        rcases List.mem_cons.mp hs2 with rfl | hs2t
        · exact ⟨a, hac,
            h6 (keyOf s2) a (findableAt_inserted acc s2 p a c hlen hp hpe hpa hpre)⟩
        · exact h7 s2 hs2t

/-- C3: for every table generation whose live-entry count is below the (power
of two) target capacity, `Data::Resize` succeeds and produces a generation of
the requested capacity holding exactly the same multiset of live strings (no
duplication, no loss), with every live entry findable by its hash and content
through `FindEntry`; no deleted sentinels carry over (the new deleted count is
zero) and the new element count equals the old one. -/
theorem resize_preserves_membership (d : STData) (c k : Nat) (hc : c = 2 ^ k)
    (hroom : (liveStrings d.slots).length < c) :
    ∃ d2, resize d c = some d2 ∧
      d2.slots.length = c ∧
      List.Perm (liveStrings d2.slots) (liveStrings d.slots) ∧
      (∀ s ∈ liveStrings d.slots, ∃ e s1,
        findEntry d2.slots (keyOf s) c = some (some e) ∧
        d2.slots.getD e Slot.empty = Slot.str s1 ∧
        keyIsMatch (keyOf s) s1 = true) ∧
      d2.numberOfDeletedElements = 0 ∧
      d2.numberOfElements = d.numberOfElements := by
  have hc0 : 0 < c := by
    rw [hc]
    exact Nat.pos_pow_of_pos k (by norm_num)
  obtain ⟨res, h1, h2, h3, h4, h5, h6, h7⟩ :=
    resizeFill_spec c k hc d.slots (List.replicate c Slot.empty)
      (List.length_replicate c Slot.empty)
      (by intro hmem; exact absurd (List.eq_of_mem_replicate hmem) (by simp))
      (by rw [show (List.replicate c Slot.empty).countP isStrSlot = 0 from by
            rw [← liveStrings_length_eq_countP, liveStrings_replicate_empty]; rfl]
          omega)
  refine ⟨⟨res, d.numberOfElements, 0⟩, ?_, h2, ?_, ?_, rfl, rfl⟩
  · simp only [resize, h1]
  · dsimp only
    refine List.Perm.trans h5 ?_
    rw [liveStrings_replicate_empty, List.append_nil]
  · intro s hs
    obtain ⟨a, hac, hfind⟩ := h7 s hs
    obtain ⟨⟨s1, hs1, hm1⟩, hpre⟩ := hfind
    have hreslen : 0 < res.length := by omega
    obtain ⟨e, s2, he, hs2, hm2⟩ := findEntryAux_reaches res hreslen (keyOf s) c 0 a
      (by omega) (by omega)
      (fun m hm1b hm2b => by
        obtain ⟨s0, hs0⟩ := hpre m hm2b
        rw [hs0]
        intro hcon
        cases hcon)
      ⟨s1, hs1, hm1⟩
    refine ⟨e, s2, ?_, hs2, hm2⟩
    have he2 : findEntryAux res (keyOf s) c
        (firstProbe (keyOf s).hash res.length) 1 = some (some e) := he
    unfold findEntry
    exact he2

/-- Witness for C3: resizing a 4-slot generation holding two strings into
capacity 8 = 2^3. -/
theorem resize_preserves_membership_witness :
    ∃ d2, resize ⟨[Slot.str ⟨1, 0, [3]⟩, Slot.empty, Slot.str ⟨2, 3, [4]⟩,
        Slot.empty], 2, 0⟩ 8 = some d2 ∧
      d2.slots.length = 8 ∧
      List.Perm (liveStrings d2.slots)
        (liveStrings [Slot.str ⟨1, 0, [3]⟩, Slot.empty, Slot.str ⟨2, 3, [4]⟩,
          Slot.empty]) ∧
      (∀ s ∈ liveStrings [Slot.str ⟨1, 0, [3]⟩, Slot.empty,
          Slot.str ⟨2, 3, [4]⟩, Slot.empty], ∃ e s1,
        findEntry d2.slots (keyOf s) 8 = some (some e) ∧
        d2.slots.getD e Slot.empty = Slot.str s1 ∧
        keyIsMatch (keyOf s) s1 = true) ∧
      d2.numberOfDeletedElements = 0 ∧
      d2.numberOfElements = 2 :=
  resize_preserves_membership
    ⟨[Slot.str ⟨1, 0, [3]⟩, Slot.empty, Slot.str ⟨2, 3, [4]⟩, Slot.empty], 2, 0⟩
    8 3 (by decide) (by decide)

end V8
